import Mathlib

/-!
The cache of `cache.go` in mnemo, with the commands of `commands.go`, the stores of
`store.go`, the instance of `mnemo.go`, the port assignment of `server.go`, the connection
pool of `pool.go` and the slice functions of `utils/slices.go`.

A shallow embedding of the keyed item store of `Cache[T]` (`src/cache.go`), of the expiry
goroutine started by `CacheWithTimeout`, of the reducer pipeline and the change monitor
(`reduce`, `cacheRaw`, `cacheReduction`, `monitorChanges`), of `Commands` and of the store
manager, followed by the properties proved about them.

Modelling conventions

* `CacheKey` is Go's `any`; here a type `K` with decidable equality.
* `time.Time` is a natural number (an instant); its zero value is `0`.  Every call of
  `time.Now()` is an explicit argument `now` of the operation that makes it.
* `time.Duration` is an integer number of nanoseconds.
* A pointer `*T` is `Option Nat`: `none` is `nil`, `some a` the address of cell `a` of a
  heap of `T` values (`Heap T`, cell `a` is the list element of index `a`).
* A pointer `*Item[T]` stored in the map is `Option Item`: `none` is `nil`, `some it` a
  pointer to an item holding `it`.  No function of the package writes to an `Item` through
  such a pointer (`Update` allocates a new `Item`), so a pointer is identified with the
  item it points to.
* A Go map is an association list with pairwise distinct keys (`AList`); `len` is the
  number of its entries.
* Every method takes `c.mu` for its whole body; a method is therefore one atomic state
  transformer `Cache K → result × Cache K`.
* The histories, the feeds and the reducer of a `Cache[T]` are kept in a `Ledger`, next to the
  item store.  A feed is the list of the messages waiting in its buffer of 1024; a send on a
  full buffer blocks and is `none`.
* A `range` over a Go map yields the entries in an order the runtime chooses; every function
  that ranges where the order shows takes that order as an argument (`RangeOrder`).
* The goroutine `monitorChanges` is its start-up (`monitorStart`) followed by passes of its
  loop (`monitorCycle`); states are taken between passes.
* `reflect.DeepEqual` on reduced snapshots is equality of the lists of entries.
-/

namespace Mnemo

set_option linter.dupNamespace false
set_option linter.unusedSectionVars false

/-- An instant of `time.Time`; `0` is the zero value. -/
abbrev Time := Nat

/-- A pointer `*T`: `none` is `nil`, `some a` the address of heap cell `a`. -/
abbrev Ptr := Option Nat

/-- The heap cells that hold values of type `T`; cell `a` is the element of index `a`. -/
abbrev Heap (T : Type) := List T

/-- The value a pointer points to: `*p`; `none` when `p` is `nil` or not allocated. -/
def deref {T : Type} (h : Heap T) (p : Ptr) : Option T :=
  match p with
  | none => none
  | some a => h[a]?

/-- The struct `Item[T]` of `cache.go`: the time the data was cached and a pointer to the data. -/
structure Item where
  CreatedAt : Time
  Data : Ptr
deriving DecidableEq

/-- The zero value `*new(Item[T])`. -/
def Item.zero : Item := { CreatedAt := 0, Data := none }

/-- The `error` values built with `fmt.Errorf` in `cache.go`, one constructor per format
string:
`duplicateKey key` is "duplicate cache key: %v",
`noCache key` is "no cache with key: %v",
`invalidTimeout t` is "cache not set for timeout: %v; timeout must be greater than 0". -/
inductive CacheError (K : Type) where
  | duplicateKey (key : K)
  | noCache (key : K)
  | invalidTimeout (timeout : Int)
deriving DecidableEq

/-- The Go map `map[CacheKey]*Item[T]`. -/
abbrev ItemMap (K : Type) := AList (fun _ : K => Option Item)

/-- The Go map `map[CacheKey]Item[T]` returned by `copyRaw` and `GetAll`. -/
abbrev RawSnapshot (K : Type) := AList (fun _ : K => Item)

/-- The single-value index expression `m[key]` on a `map[CacheKey]*Item[T]`: the stored
pointer, or the zero value `nil` when the key is not in the map. -/
def ItemMap.index {K : Type} [DecidableEq K] (m : ItemMap K) (key : K) : Option Item :=
  match m.lookup key with
  | some p => p
  | none => none

/-- The struct `Cache[T]` of `cache.go`, restricted to the item store `c.raw.caches`. -/
structure Cache (K : Type) where
  caches : ItemMap K

variable {K : Type} [DecidableEq K]

/-- Function `newCache`: the item map is `make(map[CacheKey]*Item[T])`. -/
def newCache : Cache K := { caches := ∅ }

/-- Method `Cache.Get`: the item under `key` and `true`, or the zero item and `false` when
`c.raw.caches[key]` is `nil`. -/
def Cache.Get (c : Cache K) (key : K) : Item × Bool :=
  match c.caches.index key with
  | none => (Item.zero, false)
  | some data => (data, true)

/-- The loop shared by `copyRaw` and `GetAll`:
`for k, v := range c.raw.caches { copy[k] = *v }`, run over the entries in the order the
map is iterated.  `none` is the nil-pointer panic of `*v`. -/
def derefAll : List (Sigma fun _ : K => Option Item) → RawSnapshot K → Option (RawSnapshot K)
  | [], copy => some copy
  | ⟨_, none⟩ :: _, _ => none
  | ⟨k, some v⟩ :: rest, copy => derefAll rest (copy.insert k v)

/-- Method `Cache.copyRaw`: a new map holding a copy of every item. -/
def Cache.copyRaw (c : Cache K) : Option (RawSnapshot K) :=
  derefAll c.caches.entries ∅

/-- Method `Cache.GetAll`: a new map holding a copy of every item. -/
def Cache.GetAll (c : Cache K) : Option (RawSnapshot K) :=
  derefAll c.caches.entries ∅

/-- Method `Cache.Cache`: fails when `c.raw.caches[key]` is not `nil`, otherwise stores a new item
created at `time.Now()`. -/
def Cache.Cache (c : Mnemo.Cache K) (now : Time) (key : K) (data : Ptr) :
    Option (CacheError K) × Mnemo.Cache K :=
  if c.caches.index key ≠ none then
    (some (CacheError.duplicateKey key), c)
  else
    (none, { c with caches := c.caches.insert key (some { Data := data, CreatedAt := now }) })

/-- Method `Cache.Update`: `false` when `key` is not in the map; otherwise the entry is replaced by
a new item that keeps `prev.CreatedAt` and points to a newly allocated copy of `update`
(`&update`).  `none` is the nil-pointer panic of `prev.CreatedAt`. -/
def Cache.Update {T : Type} (h : Heap T) (c : Mnemo.Cache K) (key : K) (update : T) :
    Option (Bool × Heap T × Mnemo.Cache K) :=
  match c.caches.lookup key with
  | none => some (false, h, c)
  | some none => none
  | some (some prev) =>
    some (true, h ++ [update],
      { c with caches :=
          c.caches.insert key (some { Data := some h.length, CreatedAt := prev.CreatedAt }) })

/-- Method `Cache.Delete`: fails when `c.raw.caches[key]` is `nil`, otherwise removes the key. -/
def Cache.Delete (c : Mnemo.Cache K) (key : K) : Option (CacheError K) × Mnemo.Cache K :=
  if c.caches.index key = none then
    (some (CacheError.noCache key), c)
  else
    (none, { c with caches := c.caches.erase key })

/-- The struct `cacheTimeoutConfig[T]`; `F` is the type of the callback `timeoutFun`. -/
structure cacheTimeoutConfig (K F : Type) where
  data : Ptr
  key : K
  timeoutFun : F
  timeout : Int
deriving DecidableEq

/-- Function `NewCacheTimeoutConfig`: a configuration of the four given fields. -/
def NewCacheTimeoutConfig {F : Type} (data : Ptr) (key : K) (timeoutFun : F) (timeout : Int) :
    cacheTimeoutConfig K F :=
  { data := data, key := key, timeoutFun := timeoutFun, timeout := timeout }

/-- What a call of `CacheWithTimeout` leaves behind: the returned `error`, the cache, and
the goroutine started with `go func()`, if any, which waits on a timer of `cfg.timeout`
and then runs `Cache.timerFire` with the captured `cfg`. -/
structure TimeoutResult (K F : Type) where
  err : Option (CacheError K)
  cache : Mnemo.Cache K
  timer : Option (cacheTimeoutConfig K F)

/-- Method `Cache.CacheWithTimeout`: calls `c.Cache(cfg.key, cfg.data)` and drops its result, then
returns an error when `cfg.timeout` is not greater than zero, and otherwise starts the
expiry goroutine and returns `nil`. -/
def Cache.CacheWithTimeout {F : Type} (c : Mnemo.Cache K) (now : Time) (cfg : cacheTimeoutConfig K F) :
    TimeoutResult K F :=
  let c1 := (c.Cache now cfg.key cfg.data).2
  if ¬ (cfg.timeout > 0) then
    { err := some (CacheError.invalidTimeout cfg.timeout), cache := c1, timer := none }
  else
    { err := none, cache := c1, timer := some cfg }

/-- What the expiry goroutine did: the cache it leaves, whether it reached
`logger.Fatalf` (which ends the process), the errors it built with `NewError`, and the
calls of `cfg.timeoutFun` it made, each with the pointer passed. -/
structure Expiry (K F : Type) where
  cache : Mnemo.Cache K
  fatal : Bool
  errors : List (CacheError K)
  calls : List (F × Ptr)

/-- The body of the goroutine of `CacheWithTimeout` from the moment its timer fires, run
without another goroutine in between: `Get`; `logger.Fatalf` when the key is not found;
`Delete`; on a `Delete` error `NewError` and return; otherwise `cfg.timeoutFun(item.Data)`. -/
def Cache.timerFire {F : Type} (c : Mnemo.Cache K) (cfg : cacheTimeoutConfig K F) : Expiry K F :=
  let r := c.Get cfg.key
  if r.2 = false then
    { cache := c, fatal := true, errors := [], calls := [] }
  else
    match c.Delete cfg.key with
    | (some err, c1) => { cache := c1, fatal := false, errors := [err], calls := [] }
    | (none, c1) => { cache := c1, fatal := false, errors := [], calls := [(cfg.timeoutFun, r.1.Data)] }

/-- A call of one of the mutating methods `Cache`, `Update`, `Delete`. -/
inductive Op (K T : Type) where
  | cache (now : Time) (key : K) (data : Ptr)
  | update (key : K) (update : T)
  | delete (key : K)

/-- The key an operation is called with. -/
def Op.key {T : Type} : Op K T → K
  | Op.cache _ k _ => k
  | Op.update k _ => k
  | Op.delete k => k

/-- One call on the heap and the cache; `none` is a panic. -/
def Op.run {T : Type} (o : Op K T) (s : Heap T × Mnemo.Cache K) : Option (Heap T × Mnemo.Cache K) :=
  match o with
  | Op.cache now k data => some (s.1, (s.2.Cache now k data).2)
  | Op.update k v => (Cache.Update s.1 s.2 k v).map (fun r => r.2)
  | Op.delete k => some (s.1, (s.2.Delete k).2)

/-- A sequence of calls, first to last. -/
def runOps {T : Type} : List (Op K T) → Heap T × Mnemo.Cache K → Option (Heap T × Mnemo.Cache K)
  | [], s => some s
  | o :: os, s => (o.run s).bind (runOps os)

/-- The length `len(m)` of a Go map. -/
def mapLen {V : Type} (m : AList (fun _ : K => V)) : Nat := m.entries.length

/-- No key of the item map holds a `nil` item pointer. -/
def Cache.NoNil (c : Mnemo.Cache K) : Prop :=
  ∀ e ∈ c.caches.entries, e.2.isSome = true

instance (c : Mnemo.Cache K) : Decidable c.NoNil := by
  unfold Cache.NoNil; infer_instance

/-- Caching a list of `(key, now, data)` triples one after the other with `Cache`. -/
def cacheAll (kvs : List (K × Time × Ptr)) (c : Mnemo.Cache K) : Mnemo.Cache K :=
  kvs.foldl (fun c kv => (c.Cache kv.2.1 kv.1 kv.2.2).2) c

/-- The call is an `Update` or a `Delete` of the key `k`. -/
def Op.rewrites {T : Type} (o : Op K T) (k : K) : Bool :=
  match o with
  | Op.cache _ _ _ => false
  | Op.update k1 _ => decide (k1 = k)
  | Op.delete k1 => decide (k1 = k)

/-- The call is a `Cache` of the key `k`. -/
def Op.inserts {T : Type} (o : Op K T) (k : K) : Bool :=
  match o with
  | Op.cache _ k1 _ => decide (k1 = k)
  | Op.update _ _ => false
  | Op.delete _ => false

/-- The caches that can be reached from `newCache` by calls of `Cache`, `CacheWithTimeout`,
`Update`, `Delete` and by expiry goroutines. -/
inductive Reachable : Mnemo.Cache K → Prop where
  | init : Reachable newCache
  | cache (c : Mnemo.Cache K) (now : Time) (key : K) (data : Ptr) :
      Reachable c → Reachable (c.Cache now key data).2
  | cacheWithTimeout {F : Type} (c : Mnemo.Cache K) (now : Time) (cfg : cacheTimeoutConfig K F) :
      Reachable c → Reachable (c.CacheWithTimeout now cfg).cache
  | update {T : Type} (h h1 : Heap T) (c c1 : Mnemo.Cache K) (key : K) (v : T) (b : Bool) :
      Reachable c → Cache.Update h c key v = some (b, h1, c1) → Reachable c1
  | delete (c : Mnemo.Cache K) (key : K) : Reachable c → Reachable (c.Delete key).2
  | expire {F : Type} (c : Mnemo.Cache K) (cfg : cacheTimeoutConfig K F) :
      Reachable c → Reachable (c.timerFire cfg).cache

/-! ## The reducer, the histories and the feeds of `cache.go` -/

/-- The struct `reducerCache[U]`: a cache entry with its key and creation time. -/
structure reducerCache (K D : Type) where
  Key : K
  CreatedAt : Time
  Data : D
deriving DecidableEq

/-- The struct `reducerFeed[U]`, the message of the reducer feed.  The type
`reducerHistory[T]` of the source is declared as `reducerFeed[T]` and is this struct too. -/
structure reducerFeed (K U : Type) where
  CreatedAt : Time
  Cache : List (reducerCache K U)
deriving DecidableEq

/-- The type `reducerHistory[T]` of the source, declared as `reducerFeed[T]`. -/
abbrev reducerHistory (K U : Type) := reducerFeed K U

/-- The Go map `map[time.Time]map[CacheKey]Item[T]` of `c.raw.history`. -/
abbrev RawLedger (K : Type) := AList (fun _ : Time => RawSnapshot K)

/-- The Go map `map[time.Time][]reducerCache[any]` of `c.reducer.history`. -/
abbrev ReducedLedger (K U : Type) := AList (fun _ : Time => List (reducerCache K U))

/-- A buffered channel: the messages sent and not yet received, oldest first. -/
abbrev Chan (M : Type) := List M

/-- The capacity of both feeds: `make(chan ..., 1024)` in `newCache`. -/
def feedCap : Nat := 1024

/-- The send statement `ch <- m` on a feed: the message joins the buffer when the buffer
has room; `none` when the buffer is full and the send blocks. -/
def Chan.send {M : Type} (ch : Chan M) (m : M) : Option (Chan M) :=
  if ch.length < feedCap then some (ch ++ [m]) else none

/-- The fields `history` and `feed` of the struct `raw[T]`; its field `caches` is
`Cache.caches`.  A message of the feed is the history map; the model keeps the contents the
map has when it is sent. -/
structure raw (K : Type) where
  history : RawLedger K
  feed : Chan (RawLedger K)

/-- The struct `reducer[T]`: `reduce` is `none` for the `nil` pointer the field holds before
`SetReducer`. -/
structure reducer (K T U : Type) where
  reduce : Option (List (reducerCache K T) → List (reducerCache K U))
  history : ReducedLedger K U
  feed : Chan (reducerFeed K U)

/-- The four effects of recording a change, in the order they happen. -/
inductive Effect where
  | rawRecord (t : Time)
  | rawPublish (t : Time)
  | reducedRecord (t : Time)
  | reducedPublish (t : Time)
deriving DecidableEq

/-- The part of `Cache[T]` next to the item store: `c.raw` without `caches`, `c.reducer`,
and, as a record for the proofs, the history writes and feed sends done so far, oldest
first. -/
structure Ledger (K T U : Type) where
  raw : Mnemo.raw K
  reducer : Mnemo.reducer K T U
  effects : List Effect

/-- The histories and feeds `newCache` creates: empty maps, empty channels, no reducer. -/
def newLedger {T U : Type} : Ledger K T U :=
  { raw := { history := ∅, feed := [] },
    reducer := { reduce := none, history := ∅, feed := [] },
    effects := [] }

/-- The entries of a Go map in the order a `range` statement over it yields them: some
permutation of the entries, chosen by the runtime at every `range`. -/
abbrev RangeOrder (K V : Type) :=
  (m : AList (fun _ : K => V)) → { l : List (Sigma fun _ : K => V) // l.Perm m.entries }

/-- The iteration that yields the entries in the order the map holds them. -/
def rangeEntries {V : Type} : RangeOrder K V := fun m => ⟨m.entries, List.Perm.refl _⟩

/-- The iteration that yields the entries in the reverse of that order. -/
def rangeReverse {V : Type} : RangeOrder K V :=
  fun m => ⟨m.entries.reverse, List.reverse_perm _⟩

/-- Function `newCacheReducer`: the reducer function applied to the data of every entry,
key and creation time kept. -/
def newCacheReducer {T U : Type} (f : T → U) : List (reducerCache K T) → List (reducerCache K U) :=
  fun rdt => rdt.map (fun d => { Key := d.Key, CreatedAt := d.CreatedAt, Data := f d.Data })

/-- The loop of `Cache.reduce` over the entries of `copy` in iteration order: one
`reducerCache[T]` per entry with `*item.Data` as data; `none` is the nil-pointer panic. -/
def reduceData {T : Type} (h : Heap T) :
    List (Sigma fun _ : K => Item) → Option (List (reducerCache K T))
  | [] => some []
  | e :: rest =>
    match deref h e.2.Data with
    | none => none
    | some d =>
      match reduceData h rest with
      | none => none
      | some data => some ({ Key := e.1, CreatedAt := e.2.CreatedAt, Data := d } :: data)

/-- Method `Cache.reduce`: the entries of `copy`, in the order `range` yields them, handed
to the function `*c.reducer.reduce`; `none` is a nil-pointer panic. -/
def reduce {T U : Type} (h : Heap T) (r : reducer K T U) (copy : RawSnapshot K)
    (range : RangeOrder K Item) : Option (List (reducerCache K U)) :=
  match reduceData h (range copy).val with
  | none => none
  | some data =>
    match r.reduce with
    | none => none
    | some f => some (f data)

/-- Method `Cache.cacheRaw`: `c.raw.history[t] = copy`, then the history map is sent on the
raw feed; `none` when the send blocks. -/
def cacheRaw {T U : Type} (l : Ledger K T U) (t : Time) (copy : RawSnapshot K) :
    Option (Ledger K T U) :=
  let history := l.raw.history.insert t copy
  match Chan.send l.raw.feed history with
  | none => none
  | some feed =>
    some { l with
      raw := { history := history, feed := feed },
      effects := l.effects ++ [Effect.rawRecord t, Effect.rawPublish t] }

/-- The less function of `cacheReduction`: `r[i].CreatedAt.Before(r[j].CreatedAt)`. -/
def before {U : Type} (a b : reducerCache K U) : Bool := decide (a.CreatedAt < b.CreatedAt)

/-- One step of the sort: `x` goes in front of the first entry it is before. -/
def insertSorted {U : Type} (x : reducerCache K U) : List (reducerCache K U) → List (reducerCache K U)
  | [] => [x]
  | y :: ys => if before x y then x :: y :: ys else y :: insertSorted x ys

/-- The call `sort.Slice(r, less)` of the Go library with the less function `before`: the
library promises a permutation of `r` in which no entry is before an earlier one, and no
order among entries of equal creation time.  The model is insertion from the right. -/
def sortSlice {U : Type} (r : List (reducerCache K U)) : List (reducerCache K U) :=
  r.foldr insertSorted []

/-- Method `Cache.cacheReduction`: sorts `r` in place, stores it in `c.reducer.history[t]`
and sends `reducerFeed{t, r}` on the reducer feed.  The result holds the ledger and the
slice `r` as the caller sees it afterwards, sorted; `none` when the send blocks. -/
def cacheReduction {T U : Type} (l : Ledger K T U) (t : Time) (r : List (reducerCache K U)) :
    Option (Ledger K T U × List (reducerCache K U)) :=
  let sorted := sortSlice r
  let rf : reducerFeed K U := { CreatedAt := t, Cache := sorted }
  match Chan.send l.reducer.feed rf with
  | none => none
  | some feed =>
    some ({ l with
      reducer := { l.reducer with history := l.reducer.history.insert t sorted, feed := feed },
      effects := l.effects ++ [Effect.reducedRecord t, Effect.reducedPublish t] }, sorted)

/-- Method `Cache.SetReducer`, the part before the `go` statement: the wrapped reducer
function is stored in `c.reducer.reduce`. -/
def SetReducer {T U : Type} (l : Ledger K T U) (rf : T → U) : Ledger K T U :=
  { l with reducer := { l.reducer with reduce := some (newCacheReducer rf) } }

/-- The goroutine `monitorChanges`: the ledger and its local variable `prev`. -/
structure Monitor (K T U : Type) where
  ledger : Ledger K T U
  prev : List (reducerCache K U)

/-- Method `Cache.monitorChanges` up to the `for` statement: the first snapshot is reduced
and recorded at `time.Now()`; `prev` is the slice that `cacheReduction` has sorted.  `none`
is a panic or a send that blocks. -/
def monitorStart {T U : Type} (h : Heap T) (c : Mnemo.Cache K) (l : Ledger K T U)
    (now : Time) (range : RangeOrder K Item) : Option (Monitor K T U) :=
  match c.copyRaw with
  | none => none
  | some pRaw =>
    match reduce h l.reducer pRaw range with
    | none => none
    | some prev =>
      match cacheRaw l now pRaw with
      | none => none
      | some l1 =>
        match cacheReduction l1 now prev with
        | none => none
        | some (l2, sorted) => some { ledger := l2, prev := sorted }

/-- One pass of the `for` loop of `monitorChanges` on the heap and item store of the moment:
snapshot, reduction, `reflect.DeepEqual(prev, current)` on the reduction as `reduce`
returned it, and, when they differ, both records at `time.Now()` and `prev = current`, the
slice that `cacheReduction` has sorted.  `none` is a panic or a send that blocks. -/
def monitorCycle {T U : Type} [DecidableEq U] (h : Heap T) (c : Mnemo.Cache K) (now : Time)
    (range : RangeOrder K Item) (m : Monitor K T U) : Option (Monitor K T U) :=
  match c.copyRaw with
  | none => none
  | some snapshot =>
    match reduce h m.ledger.reducer snapshot range with
    | none => none
    | some current =>
      if m.prev ≠ current then
        match cacheRaw m.ledger now snapshot with
        | none => none
        | some l1 =>
          match cacheReduction l1 now current with
          | none => none
          | some (l2, sorted) => some { ledger := l2, prev := sorted }
      else
        some m

/-- What the loop of `monitorChanges` meets at one pass: the heap and the item store of the
moment, the reading of `time.Now()`, the order of the `range` in `reduce`, and the number of
messages that receivers have taken from each feed since the pass before. -/
structure Pass (K T : Type) where
  heap : Heap T
  cache : Mnemo.Cache K
  now : Time
  range : RangeOrder K Item
  rawTaken : Nat
  reducedTaken : Nat

/-- Receivers take the oldest `n` messages of the raw feed and the oldest `k` of the
reducer feed. -/
def receive {T U : Type} (m : Monitor K T U) (n k : Nat) : Monitor K T U :=
  { m with ledger := { m.ledger with
      raw := { m.ledger.raw with feed := m.ledger.raw.feed.drop n },
      reducer := { m.ledger.reducer with feed := m.ledger.reducer.feed.drop k } } }

/-- A run of the loop of `monitorChanges`: one pass after the other, oldest first. -/
def monitorRun {T U : Type} [DecidableEq U] : List (Pass K T) → Monitor K T U → Option (Monitor K T U)
  | [], m => some m
  | p :: ps, m =>
    match monitorCycle p.heap p.cache p.now p.range (receive m p.rawTaken p.reducedTaken) with
    | none => none
    | some m1 => monitorRun ps m1

/-- Method `Cache.RawHistory`: the raw history map. -/
def RawHistory {T U : Type} (l : Ledger K T U) : RawLedger K := l.raw.history

/-- Method `Cache.ReducerHistory`: one `reducerHistory` per entry of the reducer history
map, here in the order the map holds them. -/
def ReducerHistory {T U : Type} (l : Ledger K T U) : List (reducerHistory K U) :=
  l.reducer.history.entries.map (fun e => { CreatedAt := e.1, Cache := e.2 })

/-- The item store of the examples: keys `1` and `2`, cached at the times `5` and `6`, with
the data pointers `0` and `1`. -/
def exampleCache : Mnemo.Cache Nat := cacheAll [(1, 5, some 0), (2, 6, some 1)] newCache

/-- The heap of the examples: cell `0` holds `10`, cell `1` holds `20`. -/
def exampleHeap : Heap Nat := [10, 20]

/-- The ledger of a new cache after `SetReducer` with the successor function. -/
def exampleLedger : Ledger Nat Nat Nat := SetReducer newLedger (fun x => x + 1)

/-- The item store of the examples after a third key was cached: key `3` at time `7` with
the data pointer `0`. -/
def exampleCache3 : Mnemo.Cache Nat :=
  cacheAll [(1, 5, some 0), (2, 6, some 1), (3, 7, some 0)] newCache

/-- The monitor of the examples after its start-up at time `100`. -/
def startedMonitor : Monitor Nat Nat Nat :=
  (monitorStart exampleHeap exampleCache exampleLedger 100 rangeEntries).getD
    { ledger := exampleLedger, prev := [] }

/-- The passes of the examples: one at time `101` that finds the third key, and one at time
`102`, after a receiver took a message from each feed, that finds the first two keys only. -/
def examplePasses : List (Pass Nat Nat) :=
  [{ heap := exampleHeap, cache := exampleCache3, now := 101, range := rangeEntries,
     rawTaken := 0, reducedTaken := 0 },
   { heap := exampleHeap, cache := exampleCache, now := 102, range := rangeReverse,
     rawTaken := 1, reducedTaken := 1 }]

/-- The monitor of the examples after the pass at time `101` that finds the third key. -/
def cycledMonitor : Monitor Nat Nat Nat :=
  (monitorCycle exampleHeap exampleCache3 101 rangeEntries startedMonitor).getD startedMonitor

/-- The monitor of the examples after both passes. -/
def ranMonitor : Monitor Nat Nat Nat :=
  (monitorRun examplePasses startedMonitor).getD startedMonitor

/-! ## The commands of `commands.go` -/

/-- The type `CommandKey`, a string. -/
abbrev CommandKey := String

/-- The error of `Commands.Execute`: "no command with key %v". -/
inductive CommandError where
  | noCommand (key : CommandKey)
deriving DecidableEq

/-- The struct `Commands`: the map `list`.  A value of type `func()` is `none` for `nil`
and `some f` for a function, `f` of some type `F` that names the functions. -/
structure Commands (F : Type) where
  list : AList (fun _ : CommandKey => Option F)

/-- Function `NewCommands`: the list is `make(map[CommandKey]func())`. -/
def NewCommands {F : Type} : Commands F := { list := ∅ }

/-- Method `Commands.Assign`: `c.list[k] = v` for every entry of `cmds`, in the order the
`range` yields them. -/
def Commands.Assign {F : Type} (c : Commands F) (cmds : AList (fun _ : CommandKey => Option F))
    (range : RangeOrder CommandKey (Option F)) : Commands F :=
  (range cmds).val.foldl (fun c e => { c with list := c.list.insert e.1 e.2 }) c

/-- What a call of `Commands.Execute` that returns leaves behind: the returned `error`, the
functions it called, oldest first, and the collection. -/
structure Executed (F : Type) where
  err : Option CommandError
  calls : List F
  commands : Commands F

/-- Method `Commands.Execute`: an error when `key` is not in the list, otherwise the
function under `key` is called and `nil` returned; `none` is the panic of calling a `nil`
function. -/
def Commands.Execute {F : Type} (c : Commands F) (key : CommandKey) : Option (Executed F) :=
  match c.list.lookup key with
  | none => some { err := some (CommandError.noCommand key), calls := [], commands := c }
  | some none => none
  | some (some f) => some { err := none, calls := [f], commands := c }

/-! ## The stores of `store.go` -/

/-- The type `StoreKey`, a string. -/
abbrev StoreKey := String

/-- The name of a Go type, the type argument of `NewCache[T]`. -/
abbrev GoType := String

/-- A value of `Store.data`: a `*Cache[T]` held as `any`, the name of `T` and the cache. -/
structure CacheOf (K : Type) where
  elem : GoType
  cache : Mnemo.Cache K

/-- The struct `Store`.  The field `mnemo` is a pointer to a `Mnemo`, `none` for `nil`. -/
structure Store (K F : Type) where
  key : StoreKey
  mnemo : Option Nat
  data : AList (fun _ : K => CacheOf K)
  commands : Commands F

/-- The struct `storeManager` of the variable `strMgr`.  The map holds pointers to stores;
every store is created by `NewStore` and is in the map under its own key only, so the map
of the model holds the store a pointer points to, and a write through the pointer is a
write to the entry. -/
structure storeManager (K F : Type) where
  stores : AList (fun _ : StoreKey => Store K F)

/-- The errors built with `NewError` in `store.go`, one constructor per format string:
`noCache key` is "no cache with key '%v'",
`storeExists key` is "store with key '%v' already exists",
`noStore key` is "no store with key '%v'",
`cacheExists key` is "cache with key '%v' already exists",
`wrongType key elem` is "cache with key '%v' is not of type '%v'". -/
inductive StoreError (K : Type) where
  | noCache (key : K)
  | storeExists (key : StoreKey)
  | noStore (key : StoreKey)
  | cacheExists (key : K)
  | wrongType (key : K) (elem : GoType)
deriving DecidableEq

/-- Method `Store.getCache`: the data under `key`, or an error when the key is not in the
map. -/
def Store.getCache {F : Type} (s : Store K F) (key : K) : Except (StoreError K) (CacheOf K) :=
  match s.data.lookup key with
  | none => Except.error (StoreError.noCache key)
  | some data => Except.ok data

/-- Method `Store.setCache`: `s.data[key] = data`. -/
def Store.setCache {F : Type} (s : Store K F) (key : K) (data : CacheOf K) : Store K F :=
  { s with data := s.data.insert key data }

/-- Function `NewStore` without options: an error when a store with the key exists,
otherwise a new store with no `Mnemo`, an empty data map and no commands is registered. -/
def NewStore {F : Type} (mgr : storeManager K F) (key : StoreKey) :
    Except (StoreError K) (Store K F) × storeManager K F :=
  let s : Store K F := { key := key, mnemo := none, data := ∅, commands := NewCommands }
  match mgr.stores.lookup key with
  | some _ => (Except.error (StoreError.storeExists key), mgr)
  | none => (Except.ok s, { mgr with stores := mgr.stores.insert key s })

/-- Function `UseStore`: the store registered under `key`, or an error. -/
def UseStore {F : Type} (mgr : storeManager K F) (key : StoreKey) :
    Except (StoreError K) (Store K F) :=
  match mgr.stores.lookup key with
  | none => Except.error (StoreError.noStore key)
  | some s => Except.ok s

/-- Function `NewCache[T]`: the error of `UseStore`; or an error when `getCache` finds a
cache under `c`; otherwise a new cache is stored under `c` in the store registered under
`s` and returned. -/
def NewCache {F : Type} (mgr : storeManager K F) (T : GoType) (s : StoreKey) (c : K) :
    Except (StoreError K) (Mnemo.Cache K) × storeManager K F :=
  match UseStore mgr s with
  | Except.error err => (Except.error err, mgr)
  | Except.ok store =>
    match store.getCache c with
    | Except.ok _ => (Except.error (StoreError.cacheExists c), mgr)
    | Except.error _ =>
      let nc : Mnemo.Cache K := newCache
      (Except.ok nc,
        { mgr with stores := mgr.stores.insert s (store.setCache c { elem := T, cache := nc }) })

/-- The store of the examples, as `NewStore` creates it under the key "test". -/
def exampleStore : Store String Nat :=
  { key := "test", mnemo := none, data := ∅, commands := NewCommands }

/-- The store manager of the examples after `NewStore("test")`. -/
def exampleManager : storeManager String Nat := (NewStore { stores := ∅ } "test").2

/-! ## The instance of `mnemo.go` -/

/-- The package function `UseStore` of `store.go` under the name by which the method
`Mnemo.UseStore`, which shares its name, calls it. -/
abbrev packageUseStore {F : Type} (mgr : storeManager K F) (key : StoreKey) :
    Except (StoreError K) (Store K F) :=
  UseStore mgr key

/-- The struct `Mnemo`, restricted to the map `stores` of the store keys of the instance. -/
structure Mnemo where
  stores : AList (fun _ : StoreKey => Bool)

/-- Function `New` without options: the map of store keys is empty. -/
def New : Mnemo := { stores := ∅ }

/-- Method `Mnemo.WithStores`: `m.stores[k] = true` for every key, first to last. -/
def Mnemo.WithStores (m : Mnemo) (keys : List StoreKey) : Mnemo :=
  keys.foldl (fun m k => { m with stores := m.stores.insert k true }) m

/-- The errors `Mnemo.UseStore` returns: an error of `UseStore` of `store.go`, or
`notOwned` for "store does not belong to mnemo instance". -/
inductive MnemoError (K : Type) where
  | store (err : StoreError K)
  | notOwned
deriving DecidableEq

/-- Method `Mnemo.UseStore` on the instance at address `self`.  For a key that is not in
`m.stores`: the error of `UseStore`, or `notOwned` when the store's `mnemo` pointer is not
`self`, otherwise the key is added to `m.stores` and the store returned.  For a key in
`m.stores`: the result of `UseStore`. -/
def Mnemo.UseStore {F : Type} (self : Nat) (m : Mnemo) (mgr : storeManager K F) (key : StoreKey) :
    Except (MnemoError K) (Store K F) × Mnemo :=
  match m.stores.lookup key with
  | none =>
    match packageUseStore mgr key with
    | Except.error err => (Except.error (MnemoError.store err), m)
    | Except.ok s =>
      if s.mnemo ≠ some self then
        (Except.error MnemoError.notOwned, m)
      else
        (Except.ok s, { m with stores := m.stores.insert key true })
  | some _ =>
    match packageUseStore mgr key with
    | Except.error err => (Except.error (MnemoError.store err), m)
    | Except.ok s => (Except.ok s, m)

/-! ## The slices of `utils/slices.go` -/

/-- The loop of `ReduceSlice`: `a = f(a, t)` for every element, in index order. -/
def reduceLoop {T U : Type} (f : U → T → U) : U → List T → U
  | a, [] => a
  | a, t :: rest => reduceLoop f (f a t) rest

/-- Function `ReduceSlice`: `zero` is the zero value of `U` that `var a U` declares; the
result is the value behind the returned pointer.  `none` is the panic of `*sT` on a `nil`
pointer. -/
def ReduceSlice {T U : Type} (zero : U) (sT : Option (List T)) (f : U → T → U) : Option U :=
  match sT with
  | none => none
  | some s => some (reduceLoop f zero s)

/-- The loop of `FilterSlice`: `result = append(result, t)` for every element with `f(t)`,
in index order. -/
def filterLoop {T : Type} (f : T → Bool) : List T → List T → List T
  | result, [] => result
  | result, t :: rest => filterLoop f (if f t then result ++ [t] else result) rest

/-- Function `FilterSlice`: the result slice, and next to it the slice behind `sT` after
the call, which the function only reads.  `none` is the panic of `*sT` on a `nil` pointer. -/
def FilterSlice {T : Type} (sT : Option (List T)) (f : T → Bool) : Option (List T × List T) :=
  match sT with
  | none => none
  | some s => some (filterLoop f [] s, s)

/-! ## The server manager of `server.go` -/

/-- The struct `serverConfig`. -/
structure serverConfig where
  Port : Int
  Pattern : String
  Key : String
deriving DecidableEq

/-- The struct `Server`, restricted to its configuration. -/
structure Server where
  cfg : serverConfig
deriving DecidableEq

/-- The struct `srvManager` of the variable `srvMgr`: the servers by port. -/
structure srvManager where
  servers : AList (fun _ : Int => Server)

/-- The loop of `AssignPort` over the ports in the order `range` yields them:
`if next < port { next = port + 1 }`. -/
def assignLoop : Int → List Int → Int
  | next, [] => next
  | next, port :: rest => assignLoop (if next < port then port + 1 else next) rest

/-- Method `srvManager.AssignPort`: `next` starts at 8080. -/
def srvManager.AssignPort (s : srvManager) (range : RangeOrder Int Server) : Int :=
  assignLoop 8080 ((range s.servers).val.map (fun e => e.1))

/-- The errors of `NewServer`: "server with port '%d' already exists" and
"server with key '%s' already exists". -/
inductive ServerError where
  | portExists (port : Int)
  | keyExists (key : String)
deriving DecidableEq

/-- Function `WithPort`, for a port from 1025 to 65535. -/
def WithPort (port : Int) : Server → Server :=
  fun s => { s with cfg := { s.cfg with Port := port } }

/-- Function `WithPattern`. -/
def WithPattern (pattern : String) : Server → Server :=
  fun s => { s with cfg := { s.cfg with Pattern := pattern } }

/-- The loop of `NewServer` over the registered servers in the order `range` yields them:
the first server with the port or with the key of `srv` gives the error. -/
def checkServers (srv : Server) : List (Sigma fun _ : Int => Server) → Option ServerError
  | [] => none
  | e :: rest =>
    if e.1 = srv.cfg.Port then some (ServerError.portExists srv.cfg.Port)
    else if e.2.cfg.Key = srv.cfg.Key then some (ServerError.keyExists srv.cfg.Key)
    else checkServers srv rest

/-- Function `NewServer`: the port is the one `AssignPort` returns unless an option sets
another; an error when a registered server has the port or the key, otherwise the server is
registered under its port. -/
def NewServer (mgr : srvManager) (key : String) (opts : List (Server → Server))
    (rangeAssign rangeCheck : RangeOrder Int Server) : Except ServerError Server × srvManager :=
  let cfg : serverConfig :=
    { Key := key, Port := mgr.AssignPort rangeAssign, Pattern := String.append "/" key }
  let srv : Server := opts.foldl (fun s o => o s) { cfg := cfg }
  match checkServers srv (rangeCheck mgr.servers).val with
  | some err => (Except.error err, mgr)
  | none => (Except.ok srv, { mgr with servers := mgr.servers.insert srv.cfg.Port srv })

/-! ## The connection pool of `pool.go` -/

/-- A value of type `interface{}` that is a key of `Pool.conns`: an identifier, as the
`uuid` that `NewConn` stores in `Conn.Key`, or a pointer to a `Conn`. -/
inductive ConnKey where
  | id (n : Nat)
  | conn (addr : Nat)
deriving DecidableEq

/-- A pointer to a `Conn`: the address of the struct and, of its fields, `Key`. -/
structure Conn where
  addr : Nat
  Key : ConnKey
deriving DecidableEq

/-- The struct `Pool`: the connections by key. -/
structure Pool where
  conns : AList (fun _ : ConnKey => Conn)

/-- The error of `AddConn`: "connection with key %v already exists". -/
inductive PoolError where
  | connExists (key : ConnKey)
deriving DecidableEq

/-- Function `NewPool`. -/
def NewPool : Pool := { conns := ∅ }

/-- Method `Pool.Conns`: the map of the pool. -/
def Pool.Conns (p : Pool) : AList (fun _ : ConnKey => Conn) := p.conns

/-- Method `Pool.AddConn`: an error when `c.Key` is in the map, otherwise
`p.conns[c.Key] = c`. -/
def Pool.AddConn (p : Pool) (c : Conn) : Option PoolError × Pool :=
  match p.conns.lookup c.Key with
  | some _ => (some (PoolError.connExists c.Key), p)
  | none => (none, { p with conns := p.conns.insert c.Key c })

/-- Method `Pool.removeConnection`: `delete(p.conns, c)`, the key being the pointer `c`. -/
def Pool.removeConnection (p : Pool) (c : Conn) : Pool :=
  { p with conns := p.conns.erase (ConnKey.conn c.addr) }

/-- Method `Conn.Close` of a connection whose field `Pool` points to `p`: the connection is
handed to `removeConnection`, and the websocket closed. -/
def Conn.Close (c : Conn) (p : Pool) : Pool := p.removeConnection c

/-- The server manager of the examples after `NewServer("a")` on the empty manager. -/
def oneServer : srvManager :=
  (NewServer { servers := ∅ } "a" [] rangeEntries rangeEntries).2

/-- The server manager of the examples after `NewServer("a", WithPort(8081))` and
`NewServer("b", WithPort(8082))` on the empty manager. -/
def twoServers : srvManager :=
  (NewServer (NewServer { servers := ∅ } "a" [WithPort 8081] rangeEntries rangeEntries).2
    "b" [WithPort 8082] rangeEntries rangeEntries).2

/-! ## The item map -/

theorem index_of_lookup_none (m : ItemMap K) (k : K) (h : m.lookup k = none) :
    m.index k = none := by
  simp [ItemMap.index, h]

theorem index_of_lookup_some (m : ItemMap K) (k : K) (p : Option Item) (h : m.lookup k = some p) :
    m.index k = p := by
  simp [ItemMap.index, h]

theorem index_of_not_mem (m : ItemMap K) (k : K) (h : k ∉ m) : m.index k = none :=
  index_of_lookup_none m k (AList.lookup_eq_none.mpr h)

theorem index_insert_self (m : ItemMap K) (k : K) (p : Option Item) :
    ItemMap.index (m.insert k p) k = p :=
  index_of_lookup_some _ k p (AList.lookup_insert m)

theorem index_insert_ne (m : ItemMap K) (k k' : K) (p : Option Item) (h : k' ≠ k) :
    ItemMap.index (m.insert k p) k' = m.index k' := by
  simp [ItemMap.index, AList.lookup_insert_ne h]

theorem index_erase_self (m : ItemMap K) (k : K) : ItemMap.index (m.erase k) k = none :=
  index_of_lookup_none _ k (AList.lookup_erase k m)

theorem index_erase_ne (m : ItemMap K) (k k' : K) (h : k' ≠ k) :
    ItemMap.index (m.erase k) k' = m.index k' := by
  simp [ItemMap.index, AList.lookup_erase_ne h]

/-- In a map without `nil` pointers a key that is in the map has a stored item. -/
theorem lookup_of_mem_noNil (c : Cache K) (hc : c.NoNil) (k : K) (hk : k ∈ c.caches) :
    ∃ it, c.caches.lookup k = some (some it) := by
  obtain ⟨p, hp⟩ := Option.isSome_iff_exists.mp (AList.lookup_isSome.mpr hk)
  have hmem : (Sigma.mk k p : Sigma fun _ : K => Option Item) ∈ c.caches.entries :=
    AList.mem_lookup_iff.mp hp
  have hsome := hc _ hmem
  obtain ⟨it, hit⟩ := Option.isSome_iff_exists.mp hsome
  exact ⟨it, by rw [hp]; exact congrArg some hit⟩

/-- In a map without `nil` pointers the index expression is `nil` exactly for the keys that
are not in the map. -/
theorem index_eq_none_iff (c : Cache K) (hc : c.NoNil) (k : K) :
    c.caches.index k = none ↔ k ∉ c.caches := by
  constructor
  · intro h hk
    obtain ⟨it, hit⟩ := lookup_of_mem_noNil c hc k hk
    rw [index_of_lookup_some _ k _ hit] at h
    exact Option.noConfusion h
  · exact index_of_not_mem _ k

/-! ## Copying the item map -/

/-- The copy loop over entries with distinct keys and no `nil` pointer does not panic; the
copy holds the item of every key of the entries and is the old copy elsewhere. -/
theorem derefAll_lookup (l : List (Sigma fun _ : K => Option Item)) :
    l.NodupKeys → (∀ e ∈ l, e.2.isSome = true) → ∀ copy : RawSnapshot K,
      ∃ m, derefAll l copy = some m ∧
        (∀ k, k ∈ l.keys → (m.lookup k).map some = l.dlookup k) ∧
        (∀ k, k ∉ l.keys → m.lookup k = copy.lookup k) := by
  induction l with
  | nil =>
    intro _ _ copy
    exact ⟨copy, rfl, by simp, by simp⟩
  | cons e rest ih =>
    intro hnd hnn copy
    obtain ⟨k, p⟩ := e
    have hk : k ∉ rest.keys := (List.nodupKeys_cons.mp hnd).1
    have hrest : rest.NodupKeys := (List.nodupKeys_cons.mp hnd).2
    have hp : p.isSome = true := hnn ⟨k, p⟩ (List.mem_cons_self _ _)
    obtain ⟨v, rfl⟩ := Option.isSome_iff_exists.mp hp
    obtain ⟨m, hm, hin, hout⟩ :=
      ih hrest (fun e he => hnn e (List.mem_cons_of_mem _ he)) (copy.insert k v)
    refine ⟨m, by simpa [derefAll] using hm, ?_, ?_⟩
    · intro k' hk'
      by_cases hkk : k' = k
      · subst hkk
        rw [hout k' hk, AList.lookup_insert, List.dlookup_cons_eq]
        rfl
      · have hmem : k' ∈ rest.keys := by
          simpa [List.keys, hkk] using hk'
        rw [hin k' hmem, List.dlookup_cons_ne _ _ hkk]
    · intro k' hk'
      have hkk : k' ≠ k := by
        intro h; apply hk'; simp [List.keys, h]
      have hmem : k' ∉ rest.keys := by
        intro h; apply hk'; simp only [List.keys_cons]; exact List.mem_cons_of_mem _ h
      rw [hout k' hmem, AList.lookup_insert_ne hkk]

/-- The copy loop adds one entry for every key that the copy does not hold yet. -/
theorem derefAll_length (l : List (Sigma fun _ : K => Option Item)) :
    l.NodupKeys → ∀ copy m : RawSnapshot K, derefAll l copy = some m →
      (∀ k, k ∈ l.keys → k ∉ copy) → mapLen m = mapLen copy + l.length := by
  induction l with
  | nil =>
    intro _ copy m hm _
    simp only [derefAll, Option.some.injEq] at hm
    simp [hm]
  | cons e rest ih =>
    intro hnd copy m hm hdis
    obtain ⟨k, p⟩ := e
    have hk : k ∉ rest.keys := (List.nodupKeys_cons.mp hnd).1
    have hrest : rest.NodupKeys := (List.nodupKeys_cons.mp hnd).2
    cases p with
    | none => simp [derefAll] at hm
    | some v =>
      simp only [derefAll] at hm
      have hkc : k ∉ copy := hdis k (by simp [List.keys])
      have hlen := ih hrest (copy.insert k v) m hm (by
        intro k' hk' hmem
        rcases (AList.mem_insert copy).mp hmem with h | h
        · exact hk (h ▸ hk')
        · exact hdis k' (by simp only [List.keys_cons]; exact List.mem_cons_of_mem _ hk') h)
      rw [hlen]
      simp only [mapLen, AList.insert_entries_of_neg hkc, List.length_cons]
      omega

/-- On a cache without `nil` pointers `GetAll` does not panic, and the map it returns holds
under every key what the item map holds under it. -/
theorem getAll_of_noNil (c : Cache K) (hc : c.NoNil) :
    ∃ m, c.GetAll = some m ∧ (∀ k, (m.lookup k).map some = c.caches.lookup k) ∧
      mapLen m = mapLen c.caches := by
  obtain ⟨m, hm, hin, hout⟩ := derefAll_lookup c.caches.entries c.caches.nodupKeys hc ∅
  refine ⟨m, hm, ?_, ?_⟩
  · intro k
    by_cases hk : k ∈ c.caches.entries.keys
    · exact hin k hk
    · rw [hout k hk, AList.lookup_empty]
      exact (AList.lookup_eq_none.mpr hk).symm
  · have := derefAll_length c.caches.entries c.caches.nodupKeys ∅ m hm (fun k _ => AList.not_mem_empty k)
    simpa [mapLen] using this

/-! ## The invariant: no `nil` item pointer -/

theorem noNil_newCache : (newCache : Cache K).NoNil := by
  intro e he
  simp [newCache] at he

theorem noNil_insert (c : Cache K) (hc : c.NoNil) (k : K) (it : Item) :
    Cache.NoNil { c with caches := c.caches.insert k (some it) } := by
  intro e he
  simp only [AList.insert_entries, List.mem_cons] at he
  rcases he with rfl | he
  · rfl
  · exact hc e ((List.kerase_sublist k c.caches.entries).subset he)

theorem noNil_erase (c : Cache K) (hc : c.NoNil) (k : K) :
    Cache.NoNil { c with caches := c.caches.erase k } := by
  intro e he
  exact hc e ((List.kerase_sublist k c.caches.entries).subset he)

theorem noNil_Cache (c : Cache K) (hc : c.NoNil) (now : Time) (k : K) (v : Ptr) :
    (c.Cache now k v).2.NoNil := by
  unfold Cache.Cache
  split
  · exact hc
  · exact noNil_insert c hc k _

theorem noNil_Delete (c : Cache K) (hc : c.NoNil) (k : K) : (c.Delete k).2.NoNil := by
  unfold Cache.Delete
  split
  · exact hc
  · exact noNil_erase c hc k

theorem noNil_Update {T : Type} (h h' : Heap T) (c c' : Cache K) (hc : c.NoNil) (k : K) (v : T)
    (b : Bool) (hu : Cache.Update h c k v = some (b, h', c')) : c'.NoNil := by
  unfold Cache.Update at hu
  split at hu
  · simp only [Option.some.injEq, Prod.mk.injEq] at hu
    exact hu.2.2 ▸ hc
  · exact Option.noConfusion hu
  · simp only [Option.some.injEq, Prod.mk.injEq] at hu
    exact hu.2.2 ▸ noNil_insert c hc k _

theorem noNil_CacheWithTimeout {F : Type} (c : Cache K) (hc : c.NoNil) (now : Time)
    (cfg : cacheTimeoutConfig K F) : (c.CacheWithTimeout now cfg).cache.NoNil := by
  unfold Cache.CacheWithTimeout
  split <;> exact noNil_Cache c hc now cfg.key cfg.data

/-! ## Get, Cache, Delete on single keys -/

theorem Get_of_index_some (c : Cache K) (k : K) (it : Item) (h : c.caches.index k = some it) :
    c.Get k = (it, true) := by
  simp [Cache.Get, h]

theorem Get_of_index_none (c : Cache K) (k : K) (h : c.caches.index k = none) :
    c.Get k = (Item.zero, false) := by
  simp [Cache.Get, h]

theorem Cache_of_index_none (c : Cache K) (now : Time) (k : K) (v : Ptr)
    (h : c.caches.index k = none) :
    c.Cache now k v =
      (none, { c with caches := c.caches.insert k (some { Data := v, CreatedAt := now }) }) := by
  simp [Cache.Cache, h]

theorem Cache_of_index_some (c : Cache K) (now : Time) (k : K) (v : Ptr) (it : Item)
    (h : c.caches.index k = some it) :
    c.Cache now k v = (some (CacheError.duplicateKey k), c) := by
  simp [Cache.Cache, h]

theorem Delete_of_index_none (c : Cache K) (k : K) (h : c.caches.index k = none) :
    c.Delete k = (some (CacheError.noCache k), c) := by
  simp [Cache.Delete, h]

theorem Delete_of_index_some (c : Cache K) (k : K) (it : Item) (h : c.caches.index k = some it) :
    c.Delete k = (none, { c with caches := c.caches.erase k }) := by
  simp [Cache.Delete, h]

theorem mapLen_erase (m : ItemMap K) (k : K) (hk : k ∈ m) : mapLen (m.erase k) + 1 = mapLen m := by
  have h1 : mapLen (m.erase k) = (m.erase k).keys.length := by simp [mapLen, AList.keys, List.keys]
  have h2 : mapLen m = m.keys.length := by simp [mapLen, AList.keys, List.keys]
  have hpos : 0 < m.keys.length := List.length_pos_of_mem (AList.mem_keys.mp hk)
  rw [h1, h2, AList.keys_erase, List.length_erase_of_mem (AList.mem_keys.mp hk)]
  omega

theorem mapLen_insert (m : ItemMap K) (k : K) (p : Option Item) (hk : k ∉ m) :
    mapLen (m.insert k p) = mapLen m + 1 := by
  unfold mapLen
  rw [AList.insert_entries_of_neg hk, List.length_cons]

/-! ## The expiry goroutine -/

theorem timerFire_of_index_none {F : Type} (c : Cache K) (cfg : cacheTimeoutConfig K F)
    (h : c.caches.index cfg.key = none) :
    c.timerFire cfg = { cache := c, fatal := true, errors := [], calls := [] } := by
  simp [Cache.timerFire, Get_of_index_none c cfg.key h]

theorem timerFire_of_index_some {F : Type} (c : Cache K) (cfg : cacheTimeoutConfig K F) (it : Item)
    (h : c.caches.index cfg.key = some it) :
    c.timerFire cfg =
      { cache := { c with caches := c.caches.erase cfg.key }, fatal := false, errors := [],
        calls := [(cfg.timeoutFun, it.Data)] } := by
  simp [Cache.timerFire, Get_of_index_some c cfg.key it h, Delete_of_index_some c cfg.key it h]

theorem noNil_timerFire {F : Type} (c : Cache K) (hc : c.NoNil) (cfg : cacheTimeoutConfig K F) :
    (c.timerFire cfg).cache.NoNil := by
  cases h : c.caches.index cfg.key with
  | none => rw [timerFire_of_index_none c cfg h]; exact hc
  | some it => rw [timerFire_of_index_some c cfg it h]; exact noNil_erase c hc cfg.key

/-! ## The heap -/

/-- Allocating new cells leaves the value behind every allocated pointer as it was. -/
theorem deref_append {T : Type} (h ext : Heap T) (p : Ptr) (d : T) (hd : deref h p = some d) :
    deref (h ++ ext) p = some d := by
  cases p with
  | none => exact Option.noConfusion hd
  | some a =>
    simp only [deref] at hd ⊢
    have hlt : a < h.length := by
      by_contra hge
      rw [List.getElem?_eq_none (Nat.le_of_not_lt hge)] at hd
      exact Option.noConfusion hd
    rw [List.getElem?_append_left hlt]
    exact hd

theorem deref_new {T : Type} (h : Heap T) (v : T) : deref (h ++ [v]) (some h.length) = some v := by
  simp [deref]

/-! ## Caching a list of keys -/

theorem cacheAll_cons (kv : K × Time × Ptr) (kvs : List (K × Time × Ptr)) (c : Cache K) :
    cacheAll (kv :: kvs) c = cacheAll kvs (c.Cache kv.2.1 kv.1 kv.2.2).2 := rfl

theorem noNil_cacheAll (kvs : List (K × Time × Ptr)) :
    ∀ c : Cache K, c.NoNil → (cacheAll kvs c).NoNil := by
  induction kvs with
  | nil => intro c hc; exact hc
  | cons kv kvs ih =>
    intro c hc
    rw [cacheAll_cons]
    exact ih _ (noNil_Cache c hc _ _ _)

/-- Caching keys that are pairwise distinct and not yet in the map adds one entry each. -/
theorem mapLen_cacheAll (kvs : List (K × Time × Ptr)) :
    ∀ c : Cache K, (kvs.map Prod.fst).Nodup → (∀ kv ∈ kvs, kv.1 ∉ c.caches) →
      mapLen (cacheAll kvs c).caches = mapLen c.caches + kvs.length := by
  induction kvs with
  | nil => intro c _ _; rfl
  | cons kv kvs ih =>
    intro c hnd hnot
    have hk : kv.1 ∉ c.caches := hnot kv (List.mem_cons_self _ _)
    simp only [List.map_cons, List.nodup_cons] at hnd
    rw [cacheAll_cons, Cache_of_index_none c _ _ _ (index_of_not_mem _ _ hk)]
    rw [ih _ hnd.2 ?_]
    · simp only [mapLen_insert c.caches kv.1 _ hk, List.length_cons]
      omega
    · intro kv1 hkv1 hmem
      rcases (AList.mem_insert c.caches).mp hmem with h | h
      · exact hnd.1 (h ▸ List.mem_map_of_mem Prod.fst hkv1)
      · exact hnot kv1 (List.mem_cons_of_mem _ hkv1) h

/-! ## Sequences of calls -/

/-- The copy loop panics unless every entry holds an item. -/
theorem noNil_of_derefAll (l : List (Sigma fun _ : K => Option Item)) :
    ∀ copy m : RawSnapshot K, derefAll l copy = some m → ∀ e ∈ l, e.2.isSome = true := by
  induction l with
  | nil => intro _ _ _ e he; cases he
  | cons e rest ih =>
    intro copy m hm e1 he1
    obtain ⟨k, p⟩ := e
    cases p with
    | none => simp [derefAll] at hm
    | some v =>
      simp only [derefAll] at hm
      rcases List.mem_cons.mp he1 with rfl | h
      · rfl
      · exact ih _ m hm e1 h

/-- On a cache without `nil` item pointers a call does not panic, keeps the cache free of
`nil` item pointers and leaves the value behind every allocated pointer as it was. -/
theorem Op.run_noNil {T : Type} (o : Op K T) (h : Heap T) (c : Cache K) (hc : c.NoNil) :
    ∃ s1, o.run (h, c) = some s1 ∧ s1.2.NoNil ∧
      ∀ p d, deref h p = some d → deref s1.1 p = some d := by
  cases o with
  | cache now k data =>
    exact ⟨_, rfl, noNil_Cache c hc now k data, fun _ _ hd => hd⟩
  | delete k =>
    exact ⟨_, rfl, noNil_Delete c hc k, fun _ _ hd => hd⟩
  | update k v =>
    by_cases hk : k ∈ c.caches
    · obtain ⟨prev, hprev⟩ := lookup_of_mem_noNil c hc k hk
      refine ⟨_, by simp only [Op.run, Cache.Update, hprev]; rfl, noNil_insert c hc k _, ?_⟩
      intro p d hd
      exact deref_append h [v] p d hd
    · refine ⟨(h, c), by simp [Op.run, Cache.Update, AList.lookup_eq_none.mpr hk], hc, ?_⟩
      exact fun _ _ hd => hd

theorem runOps_noNil {T : Type} (ops : List (Op K T)) :
    ∀ (h : Heap T) (c : Cache K), c.NoNil →
      ∃ s1, runOps ops (h, c) = some s1 ∧ s1.2.NoNil ∧
        ∀ p d, deref h p = some d → deref s1.1 p = some d := by
  induction ops with
  | nil => intro h c hc; exact ⟨(h, c), rfl, hc, fun _ _ hd => hd⟩
  | cons o os ih =>
    intro h c hc
    obtain ⟨s1, hs1, hn1, hd1⟩ := Op.run_noNil o h c hc
    obtain ⟨s2, hs2, hn2, hd2⟩ := ih s1.1 s1.2 hn1
    refine ⟨s2, ?_, hn2, fun p d hd => hd2 p d (hd1 p d hd)⟩
    simp only [runOps, hs1, Option.some_bind]
    exact hs2

/-- A call that is neither an `Update` nor a `Delete` of `k` leaves the item under `k`
in place. -/
theorem Op.run_keeps_item {T : Type} (o : Op K T) (k : K) (h : Heap T) (c : Cache K)
    (s1 : Heap T × Cache K) (it : Item) (hit : c.caches.lookup k = some (some it))
    (hno : o.rewrites k = false) (hrun : o.run (h, c) = some s1) :
    s1.2.caches.lookup k = some (some it) := by
  cases o with
  | cache now k1 data =>
    simp only [Op.run, Option.some.injEq] at hrun
    subst hrun
    by_cases hkk : k1 = k
    · subst hkk
      rw [Cache_of_index_some c now k1 data it (index_of_lookup_some _ k1 _ hit)]
      exact hit
    · cases hi : c.caches.index k1 with
      | none =>
        rw [Cache_of_index_none c now k1 data hi]
        exact (AList.lookup_insert_ne (Ne.symm hkk)).trans hit
      | some it1 =>
        rw [Cache_of_index_some c now k1 data it1 hi]
        exact hit
  | delete k1 =>
    simp only [Op.run, Option.some.injEq] at hrun
    subst hrun
    have hkk : k1 ≠ k := by simpa [Op.rewrites] using hno
    cases hi : c.caches.index k1 with
    | none =>
      rw [Delete_of_index_none c k1 hi]
      exact hit
    | some it1 =>
      rw [Delete_of_index_some c k1 it1 hi]
      exact (AList.lookup_erase_ne (Ne.symm hkk)).trans hit
  | update k1 v =>
    have hkk : k1 ≠ k := by simpa [Op.rewrites] using hno
    simp only [Op.run, Cache.Update] at hrun
    split at hrun
    · simp only [Option.map_some', Option.some.injEq] at hrun
      subst hrun
      exact hit
    · simp at hrun
    · simp only [Option.map_some', Option.some.injEq] at hrun
      subst hrun
      exact (AList.lookup_insert_ne (Ne.symm hkk)).trans hit

theorem runOps_keeps_item {T : Type} (ops : List (Op K T)) (k : K) (it : Item) :
    ∀ (h : Heap T) (c : Cache K) (s1 : Heap T × Cache K),
      c.caches.lookup k = some (some it) → (∀ o ∈ ops, o.rewrites k = false) →
      runOps ops (h, c) = some s1 → s1.2.caches.lookup k = some (some it) := by
  induction ops with
  | nil =>
    intro h c s1 hit _ hrun
    simp only [runOps, Option.some.injEq] at hrun
    subst hrun
    exact hit
  | cons o os ih =>
    intro h c s1 hit hno hrun
    simp only [runOps] at hrun
    cases ho : o.run (h, c) with
    | none => rw [ho] at hrun; exact Option.noConfusion hrun
    | some s =>
      rw [ho, Option.some_bind] at hrun
      have hs := Op.run_keeps_item o k h c s it hit (hno o (List.mem_cons_self _ _)) ho
      exact ih s.1 s.2 s1 hs (fun o1 ho1 => hno o1 (List.mem_cons_of_mem _ ho1)) hrun

/-- A call that is not a `Cache` of `k` does not put `k` into the item map. -/
theorem Op.run_keeps_absent {T : Type} (o : Op K T) (k : K) (h : Heap T) (c : Cache K)
    (s1 : Heap T × Cache K) (hk : k ∉ c.caches)
    (hno : o.inserts k = false) (hrun : o.run (h, c) = some s1) : k ∉ s1.2.caches := by
  cases o with
  | cache now k1 data =>
    have hkk : k1 ≠ k := by simpa [Op.inserts] using hno
    simp only [Op.run, Option.some.injEq] at hrun
    subst hrun
    cases hi : c.caches.index k1 with
    | none =>
      rw [Cache_of_index_none c now k1 data hi]
      intro hmem
      rcases (AList.mem_insert c.caches).mp hmem with h1 | h1
      · exact hkk h1.symm
      · exact hk h1
    | some it1 =>
      rw [Cache_of_index_some c now k1 data it1 hi]
      exact hk
  | delete k1 =>
    simp only [Op.run, Option.some.injEq] at hrun
    subst hrun
    cases hi : c.caches.index k1 with
    | none =>
      rw [Delete_of_index_none c k1 hi]
      exact hk
    | some it1 =>
      rw [Delete_of_index_some c k1 it1 hi]
      intro hmem
      exact hk (AList.mem_erase.mp hmem).2
  | update k1 v =>
    simp only [Op.run, Cache.Update] at hrun
    split at hrun
    · simp only [Option.map_some', Option.some.injEq] at hrun
      subst hrun
      exact hk
    · simp at hrun
    · next prev hprev =>
      simp only [Option.map_some', Option.some.injEq] at hrun
      subst hrun
      intro hmem
      rcases (AList.mem_insert c.caches).mp hmem with h1 | h1
      · subst h1
        exact hk (AList.lookup_isSome.mp (by rw [hprev]; rfl))
      · exact hk h1

theorem runOps_keeps_absent {T : Type} (ops : List (Op K T)) (k : K) :
    ∀ (h : Heap T) (c : Cache K) (s1 : Heap T × Cache K),
      k ∉ c.caches → (∀ o ∈ ops, o.inserts k = false) →
      runOps ops (h, c) = some s1 → k ∉ s1.2.caches := by
  induction ops with
  | nil =>
    intro h c s1 hk _ hrun
    simp only [runOps, Option.some.injEq] at hrun
    subst hrun
    exact hk
  | cons o os ih =>
    intro h c s1 hk hno hrun
    simp only [runOps] at hrun
    cases ho : o.run (h, c) with
    | none => rw [ho] at hrun; exact Option.noConfusion hrun
    | some s =>
      rw [ho, Option.some_bind] at hrun
      have hs := Op.run_keeps_absent o k h c s hk (hno o (List.mem_cons_self _ _)) ho
      exact ih s.1 s.2 s1 hs (fun o1 ho1 => hno o1 (List.mem_cons_of_mem _ ho1)) hrun

/-- Every reachable cache is free of `nil` item pointers. -/
theorem reachable_noNil (c : Cache K) (hr : Reachable c) : c.NoNil := by
  induction hr with
  | init => exact noNil_newCache
  | cache c now key data _ ih => exact noNil_Cache c ih now key data
  | cacheWithTimeout c now cfg _ ih => exact noNil_CacheWithTimeout c ih now cfg
  | update h h1 c c1 key v b _ hu ih => exact noNil_Update h h1 c c1 ih key v b hu
  | delete c key _ ih => exact noNil_Delete c ih key
  | expire c cfg _ ih => exact noNil_timerFire c ih cfg

/-! ## Properties of the item store -/

/-- C1: on a cache that does not hold the key `k`, `Cache(k, v)` returns no error, and a
following `Get(k)` returns an item and `true`, the item's `Data` being the pointer `v`. -/
theorem cache_then_get (c : Cache K) (now : Time) (k : K) (v : Ptr) (hk : k ∉ c.caches) :
    (c.Cache now k v).1 = none ∧
      ((c.Cache now k v).2.Get k).2 = true ∧ ((c.Cache now k v).2.Get k).1.Data = v := by
  rw [Cache_of_index_none c now k v (index_of_not_mem _ k hk)]
  have hg := Get_of_index_some
    { c with caches := c.caches.insert k (some { Data := v, CreatedAt := now }) } k _
    (index_insert_self c.caches k _)
  refine ⟨rfl, ?_, ?_⟩
  · exact congrArg Prod.snd hg
  · exact congrArg (fun r => r.1.Data) hg

theorem cache_then_get_witness :
    (2 ∉ (cacheAll [(1, 5, some 0)] (newCache : Cache Nat)).caches) ∧
      (((cacheAll [(1, 5, some 0)] (newCache : Cache Nat)).Cache 6 2 (some 1)).1 = none ∧
        (((cacheAll [(1, 5, some 0)] (newCache : Cache Nat)).Cache 6 2 (some 1)).2.Get 2).2 = true ∧
        (((cacheAll [(1, 5, some 0)] (newCache : Cache Nat)).Cache 6 2 (some 1)).2.Get 2).1.Data
          = some 1) :=
  ⟨by decide, cache_then_get _ 6 2 (some 1) (by decide)⟩

/-- C2: on a cache that holds an item `it` under `k`, `Cache(k, v)` returns the duplicate-key
error for every pointer `v` and leaves the cache as it was: `Get(k)` still returns `it`
(same `CreatedAt`, same `Data`), and `Get` of every key returns what it returned before. -/
theorem cache_duplicate_key (c : Cache K) (now : Time) (k : K) (v : Ptr) (it : Item)
    (hk : c.caches.lookup k = some (some it)) :
    (c.Cache now k v).1 = some (CacheError.duplicateKey k) ∧
      (c.Cache now k v).2 = c ∧
      (c.Cache now k v).2.Get k = (it, true) ∧
      ∀ k1, (c.Cache now k v).2.Get k1 = c.Get k1 := by
  have hi : c.caches.index k = some it := index_of_lookup_some _ k _ hk
  rw [Cache_of_index_some c now k v it hi]
  exact ⟨rfl, rfl, Get_of_index_some c k it hi, fun _ => rfl⟩

theorem cache_duplicate_key_witness :
    ((cacheAll [(1, 5, some 0)] (newCache : Cache Nat)).caches.lookup 1 = some (some ⟨5, some 0⟩)) ∧
      (((cacheAll [(1, 5, some 0)] (newCache : Cache Nat)).Cache 9 1 (some 3)).1
          = some (CacheError.duplicateKey 1) ∧
        ((cacheAll [(1, 5, some 0)] (newCache : Cache Nat)).Cache 9 1 (some 3)).2
          = cacheAll [(1, 5, some 0)] (newCache : Cache Nat) ∧
        ((cacheAll [(1, 5, some 0)] (newCache : Cache Nat)).Cache 9 1 (some 3)).2.Get 1
          = (⟨5, some 0⟩, true) ∧
        ∀ k1, ((cacheAll [(1, 5, some 0)] (newCache : Cache Nat)).Cache 9 1 (some 3)).2.Get k1
          = (cacheAll [(1, 5, some 0)] (newCache : Cache Nat)).Get k1) :=
  ⟨by decide, cache_duplicate_key _ 9 1 (some 3) ⟨5, some 0⟩ (by decide)⟩

/-- C3: on a cache without `nil` item pointers (every reachable cache, `reachable_noNil`),
`Delete(k)` returns `nil` exactly when `k` is in the item map.  After a successful
`Delete(k)` exactly the entry of `k` is gone: `GetAll` has one entry fewer, no entry for `k`
and the same item under every other key, `Get` of every other key is unchanged, and a
second `Delete(k)` returns the no-cache error. -/
theorem delete_removes_exactly (c : Cache K) (hc : c.NoNil) (k : K) :
    ((c.Delete k).1 = none ↔ k ∈ c.caches) ∧
      ((c.Delete k).1 = none →
        (∃ m m1, c.GetAll = some m ∧ (c.Delete k).2.GetAll = some m1 ∧
          mapLen m1 + 1 = mapLen m ∧ m1.lookup k = none ∧
          ∀ k1, k1 ≠ k → m1.lookup k1 = m.lookup k1) ∧
        (∀ k1, k1 ≠ k → (c.Delete k).2.Get k1 = c.Get k1) ∧
        ((c.Delete k).2.Get k).2 = false ∧
        ((c.Delete k).2.Delete k).1 = some (CacheError.noCache k)) := by
  cases hi : c.caches.index k with
  | none =>
    have hnot : k ∉ c.caches := (index_eq_none_iff c hc k).mp hi
    rw [Delete_of_index_none c k hi]
    exact ⟨⟨fun h => Option.noConfusion h, fun h => absurd h hnot⟩, fun h => Option.noConfusion h⟩
  | some it =>
    have hmem : k ∈ c.caches := by
      by_contra hnot
      rw [index_of_not_mem _ k hnot] at hi
      exact Option.noConfusion hi
    rw [Delete_of_index_some c k it hi]
    refine ⟨⟨fun _ => hmem, fun _ => rfl⟩, fun _ => ⟨?_, ?_, ?_, ?_⟩⟩
    · obtain ⟨m, hm, hlook, hlen⟩ := getAll_of_noNil c hc
      obtain ⟨m1, hm1, hlook1, hlen1⟩ := getAll_of_noNil _ (noNil_erase c hc k)
      refine ⟨m, m1, hm, hm1, ?_, ?_, ?_⟩
      · rw [hlen, hlen1]
        exact mapLen_erase c.caches k hmem
      · have h1 := hlook1 k
        simp only [AList.lookup_erase] at h1
        cases hmk : m1.lookup k with
        | none => rfl
        | some x => rw [hmk] at h1; exact Option.noConfusion h1
      · intro k1 hk1
        have h1 := hlook1 k1
        simp only [AList.lookup_erase_ne hk1] at h1
        rw [← hlook k1] at h1
        exact Option.map_injective (Option.some_injective _) h1
    · intro k1 hk1
      simp only [Cache.Get, index_erase_ne c.caches k k1 hk1]
    · exact congrArg Prod.snd (Get_of_index_none _ k (index_erase_self c.caches k))
    · exact congrArg Prod.fst (Delete_of_index_none _ k (index_erase_self c.caches k))

theorem delete_removes_exactly_witness :
    (cacheAll [(1, 5, some 0), (2, 6, some 1)] (newCache : Cache Nat)).NoNil ∧
      ((((cacheAll [(1, 5, some 0), (2, 6, some 1)] (newCache : Cache Nat)).Delete 1).1 = none ↔
          1 ∈ (cacheAll [(1, 5, some 0), (2, 6, some 1)] (newCache : Cache Nat)).caches) ∧
        (((cacheAll [(1, 5, some 0), (2, 6, some 1)] (newCache : Cache Nat)).Delete 1).1 = none →
          (∃ m m1, (cacheAll [(1, 5, some 0), (2, 6, some 1)] (newCache : Cache Nat)).GetAll = some m ∧
            ((cacheAll [(1, 5, some 0), (2, 6, some 1)] (newCache : Cache Nat)).Delete 1).2.GetAll
              = some m1 ∧
            mapLen m1 + 1 = mapLen m ∧ m1.lookup 1 = none ∧
            ∀ k1, k1 ≠ 1 → m1.lookup k1 = m.lookup k1) ∧
          (∀ k1, k1 ≠ 1 →
            ((cacheAll [(1, 5, some 0), (2, 6, some 1)] (newCache : Cache Nat)).Delete 1).2.Get k1
              = (cacheAll [(1, 5, some 0), (2, 6, some 1)] (newCache : Cache Nat)).Get k1) ∧
          (((cacheAll [(1, 5, some 0), (2, 6, some 1)] (newCache : Cache Nat)).Delete 1).2.Get 1).2
            = false ∧
          (((cacheAll [(1, 5, some 0), (2, 6, some 1)] (newCache : Cache Nat)).Delete 1).2.Delete 1).1
            = some (CacheError.noCache 1))) :=
  ⟨by decide, delete_removes_exactly _ (by decide) 1⟩

/-- C4: if the map holds an item `it` under `k`, `Update(k, v2)` returns `true`, and then
`Get(k)` returns an item with the `CreatedAt` of `it` whose `Data` points to the value `v2`;
every other key keeps its entry and the value behind every allocated pointer is as before.
If `k` is not in the map, `Update(k, v2)` returns `false` and leaves heap and cache as they
were. -/
theorem update_keeps_createdAt {T : Type} (h : Heap T) (c : Cache K) (k : K) (v2 : T) :
    (∀ it, c.caches.lookup k = some (some it) →
      ∃ h1 c1, Cache.Update h c k v2 = some (true, h1, c1) ∧
        (c1.Get k).2 = true ∧ (c1.Get k).1.CreatedAt = it.CreatedAt ∧
        deref h1 (c1.Get k).1.Data = some v2 ∧
        (∀ k1, k1 ≠ k → c1.caches.lookup k1 = c.caches.lookup k1 ∧ c1.Get k1 = c.Get k1) ∧
        (∀ p d, deref h p = some d → deref h1 p = some d)) ∧
    (k ∉ c.caches → Cache.Update h c k v2 = some (false, h, c)) := by
  constructor
  · intro it hit
    refine ⟨h ++ [v2],
      { c with
        caches := c.caches.insert k (some { Data := some h.length, CreatedAt := it.CreatedAt }) },
      ?_, ?_⟩
    · simp [Cache.Update, hit]
    · have hg := Get_of_index_some
        { c with caches :=
          c.caches.insert k (some { Data := some h.length, CreatedAt := it.CreatedAt }) } k _
        (index_insert_self c.caches k _)
      refine ⟨congrArg Prod.snd hg, congrArg (fun r => r.1.CreatedAt) hg, ?_, ?_, ?_⟩
      · rw [hg]
        exact deref_new h v2
      · intro k1 hk1
        refine ⟨AList.lookup_insert_ne hk1, ?_⟩
        simp only [Cache.Get, index_insert_ne c.caches k k1 _ hk1]
      · intro p d hd
        exact deref_append h [v2] p d hd
  · intro hk
    simp [Cache.Update, AList.lookup_eq_none.mpr hk]

theorem update_keeps_createdAt_witness :
    (∃ h1 c1, Cache.Update [10, 20] (cacheAll [(1, 5, some 0), (2, 6, some 1)] (newCache : Cache Nat))
        1 30 = some (true, h1, c1) ∧
      (c1.Get 1).2 = true ∧ (c1.Get 1).1.CreatedAt = 5 ∧
      deref h1 (c1.Get 1).1.Data = some 30 ∧
      (∀ k1, k1 ≠ 1 →
        c1.caches.lookup k1
            = (cacheAll [(1, 5, some 0), (2, 6, some 1)] (newCache : Cache Nat)).caches.lookup k1 ∧
          c1.Get k1 = (cacheAll [(1, 5, some 0), (2, 6, some 1)] (newCache : Cache Nat)).Get k1) ∧
      (∀ p d, deref [10, 20] p = some d → deref h1 p = some d)) ∧
    Cache.Update [10, 20] (cacheAll [(1, 5, some 0), (2, 6, some 1)] (newCache : Cache Nat)) 7 30
      = some (false, [10, 20], cacheAll [(1, 5, some 0), (2, 6, some 1)] (newCache : Cache Nat)) :=
  ⟨(update_keeps_createdAt [10, 20] _ 1 30).1 ⟨5, some 0⟩ (by decide),
    (update_keeps_createdAt [10, 20] _ 7 30).2 (by decide)⟩

/-- C5: on a cache without `nil` item pointers (every reachable cache, `reachable_noNil`)
`GetAll` returns a map whose keys are exactly the keys of the item map, which are the keys
`Get` finds, and which holds under each key the item `Get` returns for it.  After caching
`n` pairwise distinct keys into the empty cache it has `n` entries. -/
theorem getAll_matches_store (c : Cache K) (hc : c.NoNil) (kvs : List (K × Time × Ptr))
    (hk : (kvs.map Prod.fst).Nodup) :
    (∃ m, c.GetAll = some m ∧ mapLen m = mapLen c.caches ∧
      (∀ k, k ∈ m ↔ k ∈ c.caches) ∧ (∀ k, k ∈ m ↔ (c.Get k).2 = true) ∧
      ∀ k it, m.lookup k = some it → c.Get k = (it, true)) ∧
    (∃ m, (cacheAll kvs (newCache : Cache K)).GetAll = some m ∧ mapLen m = kvs.length) := by
  constructor
  · obtain ⟨m, hm, hlook, hlen⟩ := getAll_of_noNil c hc
    have hmem : ∀ k, k ∈ m ↔ k ∈ c.caches := by
      intro k
      rw [← AList.lookup_isSome, ← AList.lookup_isSome, ← hlook k]
      cases m.lookup k <;> rfl
    have hget : ∀ k it, m.lookup k = some it → c.Get k = (it, true) := by
      intro k it hit
      have h1 := hlook k
      rw [hit] at h1
      exact Get_of_index_some c k it (index_of_lookup_some _ k _ h1.symm)
    refine ⟨m, hm, hlen, hmem, ?_, hget⟩
    intro k
    constructor
    · intro hkm
      obtain ⟨it, hit⟩ := Option.isSome_iff_exists.mp (AList.lookup_isSome.mpr hkm)
      rw [hget k it hit]
    · intro hg
      rw [hmem k]
      by_contra hnot
      rw [Get_of_index_none c k (index_of_not_mem _ k hnot)] at hg
      exact Bool.noConfusion hg
  · obtain ⟨m, hm, _, hlen⟩ :=
      getAll_of_noNil (cacheAll kvs (newCache : Cache K)) (noNil_cacheAll kvs _ noNil_newCache)
    refine ⟨m, hm, ?_⟩
    rw [hlen, mapLen_cacheAll kvs newCache hk (fun kv _ => AList.not_mem_empty kv.1)]
    simp [mapLen, newCache]

theorem getAll_matches_store_witness :
    (cacheAll [(1, 5, some 0), (2, 6, some 1)] (newCache : Cache Nat)).NoNil ∧
      ([(3, 7, some 2), (4, 8, some 3), (5, 9, none)].map Prod.fst).Nodup ∧
      ((∃ m, (cacheAll [(1, 5, some 0), (2, 6, some 1)] (newCache : Cache Nat)).GetAll = some m ∧
        mapLen m = mapLen (cacheAll [(1, 5, some 0), (2, 6, some 1)] (newCache : Cache Nat)).caches ∧
        (∀ k, k ∈ m ↔ k ∈ (cacheAll [(1, 5, some 0), (2, 6, some 1)] (newCache : Cache Nat)).caches) ∧
        (∀ k, k ∈ m ↔
          ((cacheAll [(1, 5, some 0), (2, 6, some 1)] (newCache : Cache Nat)).Get k).2 = true) ∧
        ∀ k it, m.lookup k = some it →
          (cacheAll [(1, 5, some 0), (2, 6, some 1)] (newCache : Cache Nat)).Get k = (it, true)) ∧
      (∃ m, (cacheAll [(3, 7, some 2), (4, 8, some 3), (5, 9, none)] (newCache : Cache Nat)).GetAll
          = some m ∧
        mapLen m = [(3, 7, some 2), (4, 8, some 3), ((5 : Nat), (9 : Time), (none : Ptr))].length)) :=
  ⟨by decide, by decide, getAll_matches_store _ (by decide) _ (by decide)⟩

/-- C6: a snapshot `m` that `copyRaw` or `GetAll` returns in a state with heap `h` and cache
`c` holds exactly the keys of the item map of `c`, each with the item the map held.  Every
later sequence of `Cache`, `Update` and `Delete` calls runs to completion on heap and cache
and leaves the snapshot's items with the data values they had: the value behind the `Data`
pointer of every item of `m` is in the final heap what it was in `h`. -/
theorem snapshot_independent {T : Type} (h : Heap T) (c : Cache K) (m : RawSnapshot K)
    (ops : List (Op K T)) (hm : c.copyRaw = some m ∨ c.GetAll = some m) :
    (∀ k, (m.lookup k).map some = c.caches.lookup k) ∧
      ∃ s1, runOps ops (h, c) = some s1 ∧
        ∀ k it, m.lookup k = some it →
          c.caches.lookup k = some (some it) ∧
            ∀ d, deref h it.Data = some d → deref s1.1 it.Data = some d := by
  have hm1 : derefAll c.caches.entries ∅ = some m := by
    rcases hm with hm | hm <;> exact hm
  have hc : c.NoNil := noNil_of_derefAll c.caches.entries ∅ m hm1
  obtain ⟨m1, hm2, hlook, _⟩ := getAll_of_noNil c hc
  have hmm : m1 = m := by
    have h3 : c.GetAll = some m := hm1
    rw [hm2] at h3
    exact Option.some.inj h3
  subst hmm
  obtain ⟨s1, hs1, _, hd⟩ := runOps_noNil ops h c hc
  refine ⟨hlook, s1, hs1, ?_⟩
  intro k it hit
  refine ⟨?_, fun d hdd => hd it.Data d hdd⟩
  rw [← hlook k, hit]
  rfl

theorem snapshot_independent_witness :
    ((cacheAll [(1, 5, some 0), (2, 6, some 1)] (newCache : Cache Nat)).copyRaw
        = some (AList.insert 1 ⟨5, some 0⟩ (AList.insert 2 ⟨6, some 1⟩ ∅)) ∨
      (cacheAll [(1, 5, some 0), (2, 6, some 1)] (newCache : Cache Nat)).GetAll
        = some (AList.insert 1 ⟨5, some 0⟩ (AList.insert 2 ⟨6, some 1⟩ ∅))) ∧
    ((∀ k, ((AList.insert 1 ⟨5, some 0⟩ (AList.insert 2 ⟨6, some 1⟩ ∅) : RawSnapshot Nat).lookup k).map
          some
        = (cacheAll [(1, 5, some 0), (2, 6, some 1)] (newCache : Cache Nat)).caches.lookup k) ∧
      ∃ s1, runOps [Op.update 1 30, Op.delete 2, Op.cache 7 3 (some 0)]
          (([10, 20] : Heap Nat), cacheAll [(1, 5, some 0), (2, 6, some 1)] (newCache : Cache Nat))
          = some s1 ∧
        ∀ k it, (AList.insert 1 ⟨5, some 0⟩ (AList.insert 2 ⟨6, some 1⟩ ∅) : RawSnapshot Nat).lookup k
            = some it →
          (cacheAll [(1, 5, some 0), (2, 6, some 1)] (newCache : Cache Nat)).caches.lookup k
              = some (some it) ∧
            ∀ d, deref ([10, 20] : Heap Nat) it.Data = some d → deref s1.1 it.Data = some d) :=
  ⟨Or.inl rfl, snapshot_independent _ _ _ _ (Or.inl rfl)⟩

/-! ## Properties of `CacheWithTimeout` and of the expiry goroutine -/

/-- C7: for every configuration whose timeout is zero or negative `CacheWithTimeout`
returns the invalid-timeout error and starts no expiry goroutine, so nothing is left that
could call the timeout callback. -/
theorem cacheWithTimeout_invalid {F : Type} (c : Cache K) (now : Time)
    (cfg : cacheTimeoutConfig K F) (ht : cfg.timeout ≤ 0) :
    (c.CacheWithTimeout now cfg).err = some (CacheError.invalidTimeout cfg.timeout) ∧
      (c.CacheWithTimeout now cfg).timer = none := by
  have hnot : ¬ (cfg.timeout > 0) := not_lt.mpr ht
  simp only [Cache.CacheWithTimeout, hnot, not_false_eq_true, if_true, and_self]

theorem cacheWithTimeout_invalid_witness :
    ((NewCacheTimeoutConfig (some 0) 1 7 0 : cacheTimeoutConfig Nat Nat).timeout ≤ 0) ∧
      (((newCache : Cache Nat).CacheWithTimeout 5 (NewCacheTimeoutConfig (some 0) 1 7 0)).err
          = some (CacheError.invalidTimeout
              (NewCacheTimeoutConfig (some 0) 1 7 0 : cacheTimeoutConfig Nat Nat).timeout) ∧
        ((newCache : Cache Nat).CacheWithTimeout 5 (NewCacheTimeoutConfig (some 0) 1 7 0)).timer
          = none) :=
  ⟨by decide, cacheWithTimeout_invalid _ 5 (NewCacheTimeoutConfig (some 0) 1 7 0) (by decide)⟩

/-- C8, the code at a key that is already cached: on the cache that holds key `1` (created
at `5`, data pointer `0`), `CacheWithTimeout` for key `1` with the timeout `1000` returns
`nil` instead of the duplicate-key error and starts the expiry goroutine; the item under
`1` stays, and when the timer fires the goroutine removes that item and calls the callback
with its data pointer. -/
theorem cacheWithTimeout_duplicate_not_reported :
    ((cacheAll [(1, 5, some 0)] (newCache : Cache Nat)).Cache 9 1 (some 3)).1
        = some (CacheError.duplicateKey 1) ∧
      ((cacheAll [(1, 5, some 0)] (newCache : Cache Nat)).CacheWithTimeout 9
          (NewCacheTimeoutConfig (some 3) 1 7 1000)).err = none ∧
      ((cacheAll [(1, 5, some 0)] (newCache : Cache Nat)).CacheWithTimeout 9
          (NewCacheTimeoutConfig (some 3) 1 7 1000)).timer
        = some (NewCacheTimeoutConfig (some 3) 1 7 1000) ∧
      ((cacheAll [(1, 5, some 0)] (newCache : Cache Nat)).CacheWithTimeout 9
          (NewCacheTimeoutConfig (some 3) 1 7 1000)).cache.Get 1 = (⟨5, some 0⟩, true) ∧
      (((cacheAll [(1, 5, some 0)] (newCache : Cache Nat)).CacheWithTimeout 9
          (NewCacheTimeoutConfig (some 3) 1 7 1000)).cache.timerFire
            (NewCacheTimeoutConfig (some 3) 1 7 1000)).calls = [(7, some 0)] ∧
      ((((cacheAll [(1, 5, some 0)] (newCache : Cache Nat)).CacheWithTimeout 9
          (NewCacheTimeoutConfig (some 3) 1 7 1000)).cache.timerFire
            (NewCacheTimeoutConfig (some 3) 1 7 1000)).cache.Get 1).2 = false := by
  decide

/-- C9: when the expiry goroutine of a configuration `cfg` runs on a cache that holds an
item `it` under `cfg.key`, it does not reach `logger.Fatalf`, it removes the key (`Get`
reports not found afterwards, every other key keeps its entry) and it calls the callback
exactly once, with the `Data` pointer of `it`, the data last stored under the key.  After a
successful `CacheWithTimeout` of `cfg` (timeout positive, key not cached before) followed by
calls none of which is an `Update` or a `Delete` of `cfg.key`, that pointer is `cfg.data`. -/
theorem timer_fire_removes_and_calls {F T : Type} (c : Cache K) (cfg : cacheTimeoutConfig K F)
    (it : Item) (hk : c.caches.lookup cfg.key = some (some it))
    (c0 : Cache K) (now : Time) (h : Heap T) (ops : List (Op K T))
    (hc0 : c0.NoNil) (h0 : cfg.key ∉ c0.caches) (ht : cfg.timeout > 0)
    (hops : ∀ o ∈ ops, o.rewrites cfg.key = false) :
    ((c.timerFire cfg).fatal = false ∧
      (c.timerFire cfg).calls = [(cfg.timeoutFun, it.Data)] ∧
      ((c.timerFire cfg).cache.Get cfg.key).2 = false ∧
      (∀ k1, k1 ≠ cfg.key →
        (c.timerFire cfg).cache.caches.lookup k1 = c.caches.lookup k1 ∧
          (c.timerFire cfg).cache.Get k1 = c.Get k1)) ∧
    ((c0.CacheWithTimeout now cfg).err = none ∧
      (c0.CacheWithTimeout now cfg).timer = some cfg ∧
      ∃ s1, runOps ops (h, (c0.CacheWithTimeout now cfg).cache) = some s1 ∧
        (s1.2.timerFire cfg).fatal = false ∧
        (s1.2.timerFire cfg).calls = [(cfg.timeoutFun, cfg.data)] ∧
        ((s1.2.timerFire cfg).cache.Get cfg.key).2 = false) := by
  have fire : ∀ (c : Cache K) (it : Item), c.caches.lookup cfg.key = some (some it) →
      (c.timerFire cfg).fatal = false ∧
        (c.timerFire cfg).calls = [(cfg.timeoutFun, it.Data)] ∧
        ((c.timerFire cfg).cache.Get cfg.key).2 = false ∧
        (∀ k1, k1 ≠ cfg.key →
          (c.timerFire cfg).cache.caches.lookup k1 = c.caches.lookup k1 ∧
            (c.timerFire cfg).cache.Get k1 = c.Get k1) := by
    intro c it hk
    rw [timerFire_of_index_some c cfg it (index_of_lookup_some _ _ _ hk)]
    refine ⟨rfl, rfl, ?_, ?_⟩
    · exact congrArg Prod.snd (Get_of_index_none _ cfg.key (index_erase_self c.caches cfg.key))
    · intro k1 hk1
      refine ⟨AList.lookup_erase_ne hk1, ?_⟩
      simp only [Cache.Get, index_erase_ne c.caches cfg.key k1 hk1]
  refine ⟨fire c it hk, ?_⟩
  have hpos : ¬ ¬ (cfg.timeout > 0) := not_not.mpr ht
  have hres : c0.CacheWithTimeout now cfg =
      { err := none, cache := (c0.Cache now cfg.key cfg.data).2, timer := some cfg } := by
    simp only [Cache.CacheWithTimeout, hpos, if_false]
  rw [hres]
  refine ⟨rfl, rfl, ?_⟩
  obtain ⟨s1, hs1, _, _⟩ :=
    runOps_noNil ops h (c0.Cache now cfg.key cfg.data).2 (noNil_Cache c0 hc0 now cfg.key cfg.data)
  have hstored : (c0.Cache now cfg.key cfg.data).2.caches.lookup cfg.key
      = some (some { Data := cfg.data, CreatedAt := now }) := by
    rw [Cache_of_index_none c0 now cfg.key cfg.data (index_of_not_mem _ _ h0)]
    exact AList.lookup_insert c0.caches
  have hkept := runOps_keeps_item ops cfg.key _ h _ s1 hstored hops hs1
  obtain ⟨hf, hcalls, hget, _⟩ := fire s1.2 _ hkept
  exact ⟨s1, hs1, hf, hcalls, hget⟩

theorem timer_fire_removes_and_calls_witness :
    ((cacheAll [(1, 5, some 0), (2, 6, some 1)] (newCache : Cache Nat)).caches.lookup (NewCacheTimeoutConfig (some 3) 1 7 1000 : cacheTimeoutConfig Nat Nat).key
        = some (some ⟨5, some 0⟩)) ∧
      (cacheAll [(2, 6, some 1)] (newCache : Cache Nat)).NoNil ∧
      ((NewCacheTimeoutConfig (some 3) 1 7 1000 : cacheTimeoutConfig Nat Nat).key ∉ (cacheAll [(2, 6, some 1)] (newCache : Cache Nat)).caches) ∧
      ((NewCacheTimeoutConfig (some 3) 1 7 1000 : cacheTimeoutConfig Nat Nat).timeout > 0) ∧
      (∀ o ∈ ([Op.update 2 30, Op.cache 8 1 (some 4), Op.delete 2] : List (Op Nat Nat)),
        o.rewrites (NewCacheTimeoutConfig (some 3) 1 7 1000 : cacheTimeoutConfig Nat Nat).key = false) ∧
      (((cacheAll [(1, 5, some 0), (2, 6, some 1)] (newCache : Cache Nat)).timerFire (NewCacheTimeoutConfig (some 3) 1 7 1000 : cacheTimeoutConfig Nat Nat)).fatal = false ∧
        ((cacheAll [(1, 5, some 0), (2, 6, some 1)] (newCache : Cache Nat)).timerFire (NewCacheTimeoutConfig (some 3) 1 7 1000 : cacheTimeoutConfig Nat Nat)).calls
          = [((NewCacheTimeoutConfig (some 3) 1 7 1000 : cacheTimeoutConfig Nat Nat).timeoutFun, (⟨5, some 0⟩ : Item).Data)] ∧
        (((cacheAll [(1, 5, some 0), (2, 6, some 1)] (newCache : Cache Nat)).timerFire (NewCacheTimeoutConfig (some 3) 1 7 1000 : cacheTimeoutConfig Nat Nat)).cache.Get
          (NewCacheTimeoutConfig (some 3) 1 7 1000 : cacheTimeoutConfig Nat Nat).key).2 = false ∧
        (∀ k1, k1 ≠ (NewCacheTimeoutConfig (some 3) 1 7 1000 : cacheTimeoutConfig Nat Nat).key →
          ((cacheAll [(1, 5, some 0), (2, 6, some 1)] (newCache : Cache Nat)).timerFire (NewCacheTimeoutConfig (some 3) 1 7 1000 : cacheTimeoutConfig Nat Nat)).cache.caches.lookup k1
              = (cacheAll [(1, 5, some 0), (2, 6, some 1)] (newCache : Cache Nat)).caches.lookup k1 ∧
            ((cacheAll [(1, 5, some 0), (2, 6, some 1)] (newCache : Cache Nat)).timerFire (NewCacheTimeoutConfig (some 3) 1 7 1000 : cacheTimeoutConfig Nat Nat)).cache.Get k1
              = (cacheAll [(1, 5, some 0), (2, 6, some 1)] (newCache : Cache Nat)).Get k1)) ∧
      (((cacheAll [(2, 6, some 1)] (newCache : Cache Nat)).CacheWithTimeout 7 (NewCacheTimeoutConfig (some 3) 1 7 1000 : cacheTimeoutConfig Nat Nat)).err = none ∧
        ((cacheAll [(2, 6, some 1)] (newCache : Cache Nat)).CacheWithTimeout 7 (NewCacheTimeoutConfig (some 3) 1 7 1000 : cacheTimeoutConfig Nat Nat)).timer
          = some (NewCacheTimeoutConfig (some 3) 1 7 1000 : cacheTimeoutConfig Nat Nat) ∧
        ∃ s1, runOps [Op.update 2 30, Op.cache 8 1 (some 4), Op.delete 2]
            (([10, 20] : Heap Nat), ((cacheAll [(2, 6, some 1)] (newCache : Cache Nat)).CacheWithTimeout 7 (NewCacheTimeoutConfig (some 3) 1 7 1000 : cacheTimeoutConfig Nat Nat)).cache) = some s1 ∧
          (s1.2.timerFire (NewCacheTimeoutConfig (some 3) 1 7 1000 : cacheTimeoutConfig Nat Nat)).fatal = false ∧
          (s1.2.timerFire (NewCacheTimeoutConfig (some 3) 1 7 1000 : cacheTimeoutConfig Nat Nat)).calls
            = [((NewCacheTimeoutConfig (some 3) 1 7 1000 : cacheTimeoutConfig Nat Nat).timeoutFun, (NewCacheTimeoutConfig (some 3) 1 7 1000 : cacheTimeoutConfig Nat Nat).data)] ∧
          ((s1.2.timerFire (NewCacheTimeoutConfig (some 3) 1 7 1000 : cacheTimeoutConfig Nat Nat)).cache.Get (NewCacheTimeoutConfig (some 3) 1 7 1000 : cacheTimeoutConfig Nat Nat).key).2 = false) :=
  ⟨by decide, by decide, by decide, by decide, by decide,
    timer_fire_removes_and_calls (cacheAll [(1, 5, some 0), (2, 6, some 1)] (newCache : Cache Nat))
      (NewCacheTimeoutConfig (some 3) 1 7 1000 : cacheTimeoutConfig Nat Nat) ⟨5, some 0⟩ (by decide)
      (cacheAll [(2, 6, some 1)] (newCache : Cache Nat)) 7 ([10, 20] : Heap Nat)
      [Op.update 2 30, Op.cache 8 1 (some 4), Op.delete 2] (by decide) (by decide) (by decide) (by decide)⟩

/-- C10 as stated fails: `CacheWithTimeout` of key `1` on the empty cache, then `Delete(1)`;
when the timer fires the goroutine reaches `logger.Fatalf`.  And if `Cache(1, _)` is called
between the `Delete` and the timer, the goroutine removes the new item and calls the
callback with its data pointer. -/
theorem timer_after_delete_not_silent :
    ((((newCache : Cache Nat).CacheWithTimeout 5 (NewCacheTimeoutConfig (some 3) 1 7 1000)).cache.Delete
        1).1 = none ∧
      (((((newCache : Cache Nat).CacheWithTimeout 5
          (NewCacheTimeoutConfig (some 3) 1 7 1000)).cache.Delete 1).2.timerFire
            (NewCacheTimeoutConfig (some 3) 1 7 1000)).fatal = true)) ∧
    ((((((newCache : Cache Nat).CacheWithTimeout 5
          (NewCacheTimeoutConfig (some 3) 1 7 1000)).cache.Delete 1).2.Cache 6 1 (some 4)).2.timerFire
            (NewCacheTimeoutConfig (some 3) 1 7 1000)).calls = [(7, some 4)] ∧
      ((((((newCache : Cache Nat).CacheWithTimeout 5
          (NewCacheTimeoutConfig (some 3) 1 7 1000)).cache.Delete 1).2.Cache 6 1 (some 4)).2.timerFire
            (NewCacheTimeoutConfig (some 3) 1 7 1000)).cache.Get 1).2 = false ∧
      ((((((newCache : Cache Nat).CacheWithTimeout 5
          (NewCacheTimeoutConfig (some 3) 1 7 1000)).cache.Delete 1).2.Cache 6 1 (some 4)).2.Get
            1).2 = true)) := by
  decide

/-- C10 amended: if `Delete(k)` succeeds and none of the calls that follow is a `Cache` of
`k`, then the calls run to completion and the expiry goroutine of a configuration for `k`
leaves the item store as it is and never calls the callback, but it is not silent: it
reaches `logger.Fatalf`. -/
theorem timer_after_delete_absent {F T : Type} (c : Cache K) (cfg : cacheTimeoutConfig K F)
    (h : Heap T) (ops : List (Op K T)) (hc : c.NoNil)
    (hdel : (c.Delete cfg.key).1 = none) (hops : ∀ o ∈ ops, o.inserts cfg.key = false) :
    ∃ s1, runOps ops (h, (c.Delete cfg.key).2) = some s1 ∧
      (s1.2.timerFire cfg).cache = s1.2 ∧
      (s1.2.timerFire cfg).calls = [] ∧
      (s1.2.timerFire cfg).fatal = true := by
  obtain ⟨s1, hs1, _, _⟩ := runOps_noNil ops h (c.Delete cfg.key).2 (noNil_Delete c hc cfg.key)
  have habs : cfg.key ∉ (c.Delete cfg.key).2.caches := by
    cases hi : c.caches.index cfg.key with
    | none =>
      rw [Delete_of_index_none c cfg.key hi] at hdel
      exact Option.noConfusion hdel
    | some it =>
      rw [Delete_of_index_some c cfg.key it hi]
      exact fun hmem => (AList.mem_erase.mp hmem).1 rfl
  have hk := runOps_keeps_absent ops cfg.key h _ s1 habs hops hs1
  refine ⟨s1, hs1, ?_⟩
  rw [timerFire_of_index_none s1.2 cfg (index_of_not_mem _ _ hk)]
  exact ⟨rfl, rfl, rfl⟩

theorem timer_after_delete_absent_witness :
    ((newCache : Cache Nat).CacheWithTimeout 5 (NewCacheTimeoutConfig (some 3) 1 7 1000)).cache.NoNil ∧
      (((newCache : Cache Nat).CacheWithTimeout 5 (NewCacheTimeoutConfig (some 3) 1 7 1000)).cache.Delete
        (NewCacheTimeoutConfig (some 3) 1 7 1000 : cacheTimeoutConfig Nat Nat).key).1 = none ∧
      (∀ o ∈ ([Op.update 1 30, Op.delete 1, Op.cache 6 2 (some 0)] : List (Op Nat Nat)),
        o.inserts (NewCacheTimeoutConfig (some 3) 1 7 1000 : cacheTimeoutConfig Nat Nat).key = false) ∧
      ∃ s1, runOps [Op.update 1 30, Op.delete 1, Op.cache 6 2 (some 0)]
          (([10, 20] : Heap Nat),
            (((newCache : Cache Nat).CacheWithTimeout 5 (NewCacheTimeoutConfig (some 3) 1 7 1000)).cache.Delete
              (NewCacheTimeoutConfig (some 3) 1 7 1000 : cacheTimeoutConfig Nat Nat).key).2) = some s1 ∧
        (s1.2.timerFire (NewCacheTimeoutConfig (some 3) 1 7 1000 : cacheTimeoutConfig Nat Nat)).cache = s1.2 ∧
        (s1.2.timerFire (NewCacheTimeoutConfig (some 3) 1 7 1000 : cacheTimeoutConfig Nat Nat)).calls = [] ∧
        (s1.2.timerFire (NewCacheTimeoutConfig (some 3) 1 7 1000 : cacheTimeoutConfig Nat Nat)).fatal = true :=
  ⟨by decide, by decide, by decide,
    timer_after_delete_absent
      ((newCache : Cache Nat).CacheWithTimeout 5 (NewCacheTimeoutConfig (some 3) 1 7 1000)).cache
      (NewCacheTimeoutConfig (some 3) 1 7 1000 : cacheTimeoutConfig Nat Nat) ([10, 20] : Heap Nat)
      [Op.update 1 30, Op.delete 1, Op.cache 6 2 (some 0)] (by decide) (by decide) (by decide)⟩

/-! ## Sorting by creation time -/

theorem insertSorted_perm {U : Type} (x : reducerCache K U) (l : List (reducerCache K U)) :
    (insertSorted x l).Perm (x :: l) := by
  induction l with
  | nil => exact List.Perm.refl _
  | cons y ys ih =>
    simp only [insertSorted]
    split
    · exact List.Perm.refl _
    · exact (List.Perm.cons y ih).trans (List.Perm.swap x y ys)

theorem sortSlice_perm {U : Type} (r : List (reducerCache K U)) : (sortSlice r).Perm r := by
  induction r with
  | nil => exact List.Perm.refl _
  | cons x xs ih => exact (insertSorted_perm x (sortSlice xs)).trans (List.Perm.cons x ih)

theorem insertSorted_sorted {U : Type} (x : reducerCache K U) (l : List (reducerCache K U))
    (hl : l.Pairwise (fun a b => a.CreatedAt ≤ b.CreatedAt)) :
    (insertSorted x l).Pairwise (fun a b => a.CreatedAt ≤ b.CreatedAt) := by
  induction l with
  | nil => simp [insertSorted]
  | cons y ys ih =>
    have hy := List.pairwise_cons.mp hl
    simp only [insertSorted]
    split
    · next hlt =>
      have hxy : x.CreatedAt < y.CreatedAt := by simpa [before] using hlt
      refine List.pairwise_cons.mpr ⟨?_, hl⟩
      intro z hz
      rcases List.mem_cons.mp hz with rfl | hz
      · exact Nat.le_of_lt hxy
      · exact Nat.le_trans (Nat.le_of_lt hxy) (hy.1 z hz)
    · next hlt =>
      have hyx : y.CreatedAt ≤ x.CreatedAt := by simpa [before] using hlt
      refine List.pairwise_cons.mpr ⟨?_, ih hy.2⟩
      intro z hz
      rcases List.mem_cons.mp ((insertSorted_perm x ys).subset hz) with rfl | hz
      · exact hyx
      · exact hy.1 z hz

theorem sortSlice_sorted {U : Type} (r : List (reducerCache K U)) :
    (sortSlice r).Pairwise (fun a b => a.CreatedAt ≤ b.CreatedAt) := by
  induction r with
  | nil => exact List.Pairwise.nil
  | cons x xs ih => exact insertSorted_sorted x (sortSlice xs) ih

/-! ## The reduction of a snapshot -/

/-- The loop of `reduce` over entries whose data pointers are all allocated does not panic
and yields one entry per entry, in the same order, with the value behind the pointer. -/
theorem reduceData_of_allocated {T : Type} (h : Heap T) (l : List (Sigma fun _ : K => Item))
    (hl : ∀ e ∈ l, (deref h e.2.Data).isSome = true) :
    ∃ data, reduceData h l = some data ∧ data.map (fun x => x.Key) = l.map (fun e => e.1) ∧
      ∀ x ∈ data, ∃ e ∈ l, x.Key = e.1 ∧ x.CreatedAt = e.2.CreatedAt ∧
        deref h e.2.Data = some x.Data := by
  induction l with
  | nil => exact ⟨[], rfl, rfl, by simp⟩
  | cons e rest ih =>
    obtain ⟨data, hdata, hkeys, hmem⟩ := ih (fun e1 he1 => hl e1 (List.mem_cons_of_mem _ he1))
    obtain ⟨d, hd⟩ := Option.isSome_iff_exists.mp (hl e (List.mem_cons_self _ _))
    refine ⟨{ Key := e.1, CreatedAt := e.2.CreatedAt, Data := d } :: data, ?_, ?_, ?_⟩
    · simp [reduceData, hd, hdata]
    · simp [hkeys]
    · intro x hx
      rcases List.mem_cons.mp hx with rfl | hx
      · exact ⟨e, List.mem_cons_self _ _, rfl, rfl, hd⟩
      · obtain ⟨e1, he1, h1⟩ := hmem x hx
        exact ⟨e1, List.mem_cons_of_mem _ he1, h1⟩

/-- The loop of `reduce` panics unless every data pointer is allocated. -/
theorem allocated_of_reduceData {T : Type} (h : Heap T) (l : List (Sigma fun _ : K => Item))
    (data : List (reducerCache K T)) (hd : reduceData h l = some data) :
    ∀ e ∈ l, (deref h e.2.Data).isSome = true := by
  induction l generalizing data with
  | nil => intro e he; cases he
  | cons e rest ih =>
    intro e1 he1
    simp only [reduceData] at hd
    split at hd
    · exact Option.noConfusion hd
    · next d hde =>
      split at hd
      · exact Option.noConfusion hd
      · next data1 hrest =>
        rcases List.mem_cons.mp he1 with rfl | h1
        · rw [hde]; rfl
        · exact ih data1 hrest e1 h1

/-! ## Recording a change -/

theorem cacheRaw_of_room {T U : Type} (l : Ledger K T U) (t : Time) (copy : RawSnapshot K)
    (hroom : l.raw.feed.length < feedCap) :
    cacheRaw l t copy = some { l with
      raw := { history := l.raw.history.insert t copy,
               feed := l.raw.feed ++ [l.raw.history.insert t copy] },
      effects := l.effects ++ [Effect.rawRecord t, Effect.rawPublish t] } := by
  simp only [cacheRaw, Chan.send, hroom, if_true]

theorem cacheReduction_of_room {T U : Type} (l : Ledger K T U) (t : Time)
    (r : List (reducerCache K U)) (hroom : l.reducer.feed.length < feedCap) :
    cacheReduction l t r = some ({ l with
      reducer := { l.reducer with
        history := l.reducer.history.insert t (sortSlice r),
        feed := l.reducer.feed ++ [{ CreatedAt := t, Cache := sortSlice r }] },
      effects := l.effects ++ [Effect.reducedRecord t, Effect.reducedPublish t] },
      sortSlice r) := by
  simp only [cacheReduction, Chan.send, hroom, if_true]

/-- A send that does not block found room in the buffer. -/
theorem room_of_send {M : Type} (ch ch1 : Chan M) (m : M) (hs : ch.send m = some ch1) :
    ch.length < feedCap ∧ ch1 = ch ++ [m] := by
  unfold Chan.send at hs
  split at hs
  · next hlt => exact ⟨hlt, (Option.some.inj hs).symm⟩
  · exact Option.noConfusion hs

theorem room_of_cacheRaw {T U : Type} (l l1 : Ledger K T U) (t : Time) (copy : RawSnapshot K)
    (hs : cacheRaw l t copy = some l1) : l.raw.feed.length < feedCap := by
  unfold cacheRaw at hs
  simp only at hs
  split at hs
  · exact Option.noConfusion hs
  · next feed hsend => exact (room_of_send _ _ _ hsend).1

theorem room_of_cacheReduction {T U : Type} (l l1 : Ledger K T U) (t : Time)
    (r s : List (reducerCache K U)) (hs : cacheReduction l t r = some (l1, s)) :
    l.reducer.feed.length < feedCap := by
  unfold cacheReduction at hs
  simp only at hs
  split at hs
  · exact Option.noConfusion hs
  · next feed hsend => exact (room_of_send _ _ _ hsend).1

/-- With the reducer of `SetReducer(f)` installed, `reduce` returns on every snapshot whose
data pointers are all allocated. -/
theorem reduce_returns_of_allocated {T U : Type} (h : Heap T) (f : T → U) (l : Ledger K T U)
    (m : RawSnapshot K) (range : RangeOrder K Item)
    (hm : ∀ e ∈ m.entries, (deref h e.2.Data).isSome = true) :
    ∃ out, reduce h (SetReducer l f).reducer m range = some out := by
  obtain ⟨data, hdata, _, _⟩ := reduceData_of_allocated h (range m).val
    (fun e he => hm e ((range m).property.subset he))
  exact ⟨newCacheReducer f data, by simp [reduce, hdata, SetReducer]⟩

/-! ## Properties of the reducer pipeline -/

/-- C11: for every reducer function `f` and every raw snapshot `m` whose items all have
allocated (non-nil) data, `reduce(m)` with the reducer installed by `SetReducer(f)` returns,
whatever the iteration order, a list with exactly one entry per key of `m` (its keys are a
permutation of the keys of `m`), and every entry has the `CreatedAt` of the item of its key
and as `Data` the value of `f` at the data of that item. -/
theorem reduce_one_entry_per_key {T U : Type} (h : Heap T) (f : T → U) (l : Ledger K T U)
    (m : RawSnapshot K) (range : RangeOrder K Item)
    (hm : ∀ e ∈ m.entries, (deref h e.2.Data).isSome = true) :
    ∃ out, reduce h (SetReducer l f).reducer m range = some out ∧
      (out.map (fun x => x.Key)).Perm m.keys ∧
      ∀ x ∈ out, ∃ it d, m.lookup x.Key = some it ∧ x.CreatedAt = it.CreatedAt ∧
        deref h it.Data = some d ∧ x.Data = f d := by
  have hperm := (range m).property
  obtain ⟨data, hdata, hkeys, hmem⟩ := reduceData_of_allocated h (range m).val
    (fun e he => hm e (hperm.subset he))
  refine ⟨newCacheReducer f data, ?_, ?_, ?_⟩
  · simp [reduce, hdata, SetReducer]
  · have h1 : (newCacheReducer f data).map (fun x => x.Key) = data.map (fun x => x.Key) := by
      simp [newCacheReducer, List.map_map, Function.comp_def]
    rw [h1, hkeys]
    exact hperm.map _
  · intro x hx
    simp only [newCacheReducer, List.mem_map] at hx
    obtain ⟨y, hy, rfl⟩ := hx
    obtain ⟨e, he, hk, hc, hd⟩ := hmem y hy
    have hlook : m.lookup e.1 = some e.2 := AList.mem_lookup_iff.mpr (hperm.subset he)
    exact ⟨e.2, y.Data, by rw [hk]; exact hlook, hc, hd, rfl⟩

theorem reduce_one_entry_per_key_witness :
    (∀ e ∈ (AList.insert 1 ⟨5, some 0⟩ (AList.insert 2 ⟨6, some 1⟩ ∅) : RawSnapshot Nat).entries,
        (deref ([10, 20] : Heap Nat) e.2.Data).isSome = true) ∧
      ∃ out, reduce ([10, 20] : Heap Nat)
          (SetReducer (newLedger : Ledger Nat Nat Nat) (fun x => x + 1)).reducer
          (AList.insert 1 ⟨5, some 0⟩ (AList.insert 2 ⟨6, some 1⟩ ∅)) rangeReverse = some out ∧
        (out.map (fun x => x.Key)).Perm
          (AList.insert 1 ⟨5, some 0⟩ (AList.insert 2 ⟨6, some 1⟩ ∅) : RawSnapshot Nat).keys ∧
        ∀ x ∈ out, ∃ it d,
          (AList.insert 1 ⟨5, some 0⟩ (AList.insert 2 ⟨6, some 1⟩ ∅) : RawSnapshot Nat).lookup x.Key
            = some it ∧
          x.CreatedAt = it.CreatedAt ∧ deref ([10, 20] : Heap Nat) it.Data = some d ∧
          x.Data = (fun x => x + 1) d :=
  ⟨by decide, reduce_one_entry_per_key _ (fun x => x + 1) newLedger _ rangeReverse (by decide)⟩

/-- C12: when the reducer feed has room, `cacheReduction(t, r)` stores under `t` in the
reducer history and sends on the reducer feed, as `reducerFeed{t, s}`, one and the same
slice `s`, which is a permutation of the reducer output `r` ordered by `CreatedAt`: for all
positions `i < j` the `CreatedAt` of entry `j` is not before that of entry `i`. -/
theorem cacheReduction_sorted_perm {T U : Type} (l : Ledger K T U) (t : Time)
    (r : List (reducerCache K U)) (hroom : l.reducer.feed.length < feedCap) :
    ∃ l1 s, cacheReduction l t r = some (l1, s) ∧
      l1.reducer.history.lookup t = some s ∧
      l1.reducer.feed = l.reducer.feed ++ [{ CreatedAt := t, Cache := s }] ∧
      s.Perm r ∧
      ∀ i j : Fin s.length, i < j → ¬ ((s.get j).CreatedAt < (s.get i).CreatedAt) := by
  refine ⟨_, sortSlice r, cacheReduction_of_room l t r hroom, ?_, rfl, sortSlice_perm r, ?_⟩
  · exact AList.lookup_insert _
  · intro i j hij
    exact Nat.not_lt.mpr (List.pairwise_iff_get.mp (sortSlice_sorted r) i j hij)

theorem cacheReduction_sorted_perm_witness :
    ((newLedger : Ledger Nat Nat Nat).reducer.feed.length < feedCap) ∧
      ∃ l1 s, cacheReduction (newLedger : Ledger Nat Nat Nat) 100
          [⟨2, 6, 21⟩, ⟨3, 4, 31⟩, ⟨1, 5, 11⟩] = some (l1, s) ∧
        l1.reducer.history.lookup 100 = some s ∧
        l1.reducer.feed
          = (newLedger : Ledger Nat Nat Nat).reducer.feed ++ [{ CreatedAt := 100, Cache := s }] ∧
        s.Perm [⟨2, 6, 21⟩, ⟨3, 4, 31⟩, ⟨1, 5, 11⟩] ∧
        ∀ i j : Fin s.length, i < j → ¬ ((s.get j).CreatedAt < (s.get i).CreatedAt) :=
  ⟨by decide, cacheReduction_sorted_perm newLedger 100 [⟨2, 6, 21⟩, ⟨3, 4, 31⟩, ⟨1, 5, 11⟩]
    (by decide)⟩


/-! ## The monitor -/

/-- What `cacheRaw` followed by `cacheReduction` at the same time leaves, when neither
send blocks. -/
theorem record_change {T U : Type} (l l1 l2 : Ledger K T U) (t : Time) (copy : RawSnapshot K)
    (r s : List (reducerCache K U)) (h1 : cacheRaw l t copy = some l1)
    (h2 : cacheReduction l1 t r = some (l2, s)) :
    s = sortSlice r ∧
      l2.raw.history = l.raw.history.insert t copy ∧
      l2.raw.feed = l.raw.feed ++ [l.raw.history.insert t copy] ∧
      l2.reducer.reduce = l.reducer.reduce ∧
      l2.reducer.history = l.reducer.history.insert t (sortSlice r) ∧
      l2.reducer.feed = l.reducer.feed ++ [{ CreatedAt := t, Cache := sortSlice r }] ∧
      l2.effects = l.effects ++ [Effect.rawRecord t, Effect.rawPublish t,
        Effect.reducedRecord t, Effect.reducedPublish t] := by
  have hr1 := room_of_cacheRaw l l1 t copy h1
  rw [cacheRaw_of_room l t copy hr1] at h1
  have hl1 := Option.some.inj h1
  subst hl1
  have hr2 := room_of_cacheReduction _ l2 t r s h2
  rw [cacheReduction_of_room _ t r hr2] at h2
  have h3 := Option.some.inj h2
  simp only [Prod.mk.injEq] at h3
  obtain ⟨hl2, hs⟩ := h3
  subst hl2
  subst hs
  refine ⟨rfl, rfl, rfl, rfl, rfl, rfl, ?_⟩
  simp

/-- What a start-up of `monitorChanges` that returns has done. -/
theorem monitorStart_inv {T U : Type} (h : Heap T) (c : Cache K) (l : Ledger K T U) (now : Time)
    (range : RangeOrder K Item) (m : Monitor K T U)
    (hm : monitorStart h c l now range = some m) :
    ∃ pRaw prev l1, c.copyRaw = some pRaw ∧ reduce h l.reducer pRaw range = some prev ∧
      cacheRaw l now pRaw = some l1 ∧ cacheReduction l1 now prev = some (m.ledger, m.prev) := by
  unfold monitorStart at hm
  split at hm
  · exact Option.noConfusion hm
  · next pRaw hp =>
    split at hm
    · exact Option.noConfusion hm
    · next prev hprev =>
      split at hm
      · exact Option.noConfusion hm
      · next l1 hl1 =>
        split at hm
        · exact Option.noConfusion hm
        · next l2 sorted hl2 =>
          have := Option.some.inj hm
          subst this
          exact ⟨pRaw, prev, l1, hp, hprev, hl1, hl2⟩

/-- What a pass of the loop of `monitorChanges` that returns has done: nothing when the
reduction equals `prev`, both records otherwise. -/
theorem monitorCycle_inv {T U : Type} [DecidableEq U] (h : Heap T) (c : Cache K) (now : Time)
    (range : RangeOrder K Item) (m m1 : Monitor K T U)
    (hm : monitorCycle h c now range m = some m1) :
    ∃ snapshot current, c.copyRaw = some snapshot ∧
      reduce h m.ledger.reducer snapshot range = some current ∧
      ((m.prev = current ∧ m1 = m) ∨
        (m.prev ≠ current ∧ ∃ l1, cacheRaw m.ledger now snapshot = some l1 ∧
          cacheReduction l1 now current = some (m1.ledger, m1.prev))) := by
  unfold monitorCycle at hm
  split at hm
  · exact Option.noConfusion hm
  · next snapshot hp =>
    split at hm
    · exact Option.noConfusion hm
    · next current hcur =>
      refine ⟨snapshot, current, hp, hcur, ?_⟩
      split at hm
      · next hne =>
        right
        refine ⟨hne, ?_⟩
        split at hm
        · exact Option.noConfusion hm
        · next l1 hl1 =>
          split at hm
          · exact Option.noConfusion hm
          · next l2 sorted hl2 =>
            have := Option.some.inj hm
            subst this
            exact ⟨l1, hl1, hl2⟩
      · next heq =>
        left
        exact ⟨not_not.mp heq, (Option.some.inj hm).symm⟩

theorem mapLen_insert_le {V : Type} (m : AList (fun _ : K => V)) (k : K) (v : V) :
    mapLen (m.insert k v) ≤ mapLen m + 1 := by
  simp only [mapLen, AList.insert_entries, List.length_cons]
  exact Nat.succ_le_succ (List.kerase_sublist k m.entries).length_le

/-- Both histories hold entries under the same timestamps. -/
theorem agree_of_record {T U : Type} (l l1 l2 : Ledger K T U) (t : Time) (copy : RawSnapshot K)
    (r s : List (reducerCache K U)) (h1 : cacheRaw l t copy = some l1)
    (h2 : cacheReduction l1 t r = some (l2, s))
    (hl : ∀ t1, t1 ∈ l.raw.history ↔ t1 ∈ l.reducer.history) :
    ∀ t1, t1 ∈ l2.raw.history ↔ t1 ∈ l2.reducer.history := by
  obtain ⟨_, hraw, _, _, hred, _, _⟩ := record_change l l1 l2 t copy r s h1 h2
  intro t1
  rw [hraw, hred, AList.mem_insert, AList.mem_insert, hl t1]

theorem agree_of_monitorCycle {T U : Type} [DecidableEq U] (h : Heap T) (c : Cache K) (now : Time)
    (range : RangeOrder K Item) (m m1 : Monitor K T U)
    (hm : monitorCycle h c now range m = some m1)
    (hl : ∀ t, t ∈ m.ledger.raw.history ↔ t ∈ m.ledger.reducer.history) :
    ∀ t, t ∈ m1.ledger.raw.history ↔ t ∈ m1.ledger.reducer.history := by
  obtain ⟨snapshot, current, _, _, hcase⟩ := monitorCycle_inv h c now range m m1 hm
  rcases hcase with ⟨_, rfl⟩ | ⟨_, l1, h1, h2⟩
  · exact hl
  · exact agree_of_record m.ledger l1 m1.ledger now snapshot current m1.prev h1 h2 hl

theorem agree_of_monitorRun {T U : Type} [DecidableEq U] (passes : List (Pass K T)) :
    ∀ m m1 : Monitor K T U, monitorRun passes m = some m1 →
      (∀ t, t ∈ m.ledger.raw.history ↔ t ∈ m.ledger.reducer.history) →
      ∀ t, t ∈ m1.ledger.raw.history ↔ t ∈ m1.ledger.reducer.history := by
  induction passes with
  | nil =>
    intro m m1 hrun hl
    simp only [monitorRun, Option.some.injEq] at hrun
    exact hrun ▸ hl
  | cons p ps ih =>
    intro m m1 hrun hl
    simp only [monitorRun] at hrun
    split at hrun
    · exact Option.noConfusion hrun
    · next m2 hm2 =>
      exact ih m2 m1 hrun
        (agree_of_monitorCycle p.heap p.cache p.now p.range _ m2 hm2 hl)


theorem mapLen_insert_new {V : Type} (m : AList (fun _ : K => V)) (k : K) (v : V) (hk : k ∉ m) :
    mapLen (m.insert k v) = mapLen m + 1 := by
  unfold mapLen
  rw [AList.insert_entries_of_neg hk, List.length_cons]

/-- A start-up of `monitorChanges` returns when the snapshot can be taken and reduced and
both feeds have room. -/
theorem monitorStart_of_room {T U : Type} (h : Heap T) (c : Cache K) (l : Ledger K T U) (now : Time)
    (range : RangeOrder K Item) (pRaw : RawSnapshot K) (prev : List (reducerCache K U))
    (hp : c.copyRaw = some pRaw) (hprev : reduce h l.reducer pRaw range = some prev)
    (hraw : l.raw.feed.length < feedCap) (hred : l.reducer.feed.length < feedCap) :
    ∃ m, monitorStart h c l now range = some m := by
  unfold monitorStart
  simp only [hp, hprev, cacheRaw, cacheReduction, Chan.send, hraw, hred, if_true]
  exact ⟨_, rfl⟩

/-! ## Properties of the change monitor -/

/-- C13, the code on an unchanged item store: after the start-up at time `100` the loop
makes one pass at time `101` over the same heap and the same item store (keys `1` and `2`
created at `5` and `6`), and its `range` yields key `2` before key `1`.  The pass records
again: both histories hold two entries and both feeds got two messages, although the
reduced snapshot sent at `101` equals the one sent at `100`. -/
theorem unchanged_store_recorded_again :
    ((monitorStart exampleHeap exampleCache exampleLedger 100 rangeEntries).bind
        (monitorCycle exampleHeap exampleCache 101 rangeReverse)).map
      (fun m => (mapLen m.ledger.raw.history, mapLen m.ledger.reducer.history,
        m.ledger.raw.feed.length, m.ledger.reducer.feed))
    = some (2, 2, 2,
        [{ CreatedAt := 100, Cache := [⟨1, 5, 11⟩, ⟨2, 6, 21⟩] },
          { CreatedAt := 101, Cache := [⟨1, 5, 11⟩, ⟨2, 6, 21⟩] }]) := by
  decide

/-- C14 as stated fails: `Cache(1, nil)` on a new cache stores an item whose data pointer is
`nil`; the start-up of `monitorChanges` after `SetReducer` then panics in `reduce`, at
`*item.Data`, and records nothing. -/
theorem monitorStart_not_unconditional :
    ((newCache : Cache Nat).Cache 5 1 none).1 = none ∧
      (monitorStart exampleHeap ((newCache : Cache Nat).Cache 5 1 none).2 exampleLedger 100
        rangeEntries).isNone = true := by
  decide

/-- C14 amended: on a cache whose items all have allocated (non-nil) data and whose feeds
both have room, the start-up of `monitorChanges` after `SetReducer(f)` returns, before any
pass of the loop, having written the raw snapshot of the item store into the raw history
and the sorted reduction of that snapshot into the reducer history, both under
`time.Now()`, and having sent one message on each feed.  Where the histories had no entry
under that time, as on a new cache, each has exactly one entry more. -/
theorem monitorStart_records_once {T U : Type} (h : Heap T) (c : Cache K) (l : Ledger K T U)
    (f : T → U) (now : Time) (range : RangeOrder K Item) (hc : c.NoNil)
    (hdata : ∀ e ∈ c.caches.entries, ∀ it ∈ e.2, (deref h it.Data).isSome = true)
    (hraw : l.raw.feed.length < feedCap) (hred : l.reducer.feed.length < feedCap) :
    ∃ m pRaw out, c.copyRaw = some pRaw ∧
      (∀ k, (pRaw.lookup k).map some = c.caches.lookup k) ∧
      reduce h (SetReducer l f).reducer pRaw range = some out ∧
      monitorStart h c (SetReducer l f) now range = some m ∧
      m.ledger.raw.history = l.raw.history.insert now pRaw ∧
      m.ledger.reducer.history = l.reducer.history.insert now (sortSlice out) ∧
      m.ledger.raw.feed = l.raw.feed ++ [l.raw.history.insert now pRaw] ∧
      m.ledger.reducer.feed = l.reducer.feed ++ [{ CreatedAt := now, Cache := sortSlice out }] ∧
      (now ∉ l.raw.history → mapLen m.ledger.raw.history = mapLen l.raw.history + 1) ∧
      (now ∉ l.reducer.history →
        mapLen m.ledger.reducer.history = mapLen l.reducer.history + 1) := by
  obtain ⟨pRaw, hp, hlook, _⟩ := getAll_of_noNil c hc
  have hp1 : c.copyRaw = some pRaw := hp
  have halloc : ∀ e ∈ pRaw.entries, (deref h e.2.Data).isSome = true := by
    intro e he
    have h1 : pRaw.lookup e.1 = some e.2 := AList.mem_lookup_iff.mpr he
    have h2 := hlook e.1
    rw [h1] at h2
    exact hdata ⟨e.1, some e.2⟩ (AList.mem_lookup_iff.mp h2.symm) e.2 rfl
  obtain ⟨out, hout⟩ := reduce_returns_of_allocated h f l pRaw range halloc
  obtain ⟨m, hm⟩ := monitorStart_of_room h c (SetReducer l f) now range pRaw out hp1 hout hraw hred
  obtain ⟨pRaw1, prev1, l1, hp2, hprev1, hl1, hl2⟩ := monitorStart_inv h c _ now range m hm
  have e1 : pRaw1 = pRaw := Option.some.inj (hp2.symm.trans hp1)
  subst e1
  have e2 : prev1 = out := Option.some.inj (hprev1.symm.trans hout)
  subst e2
  obtain ⟨_, hrh, hrf, _, hdh, hdf, _⟩ := record_change _ l1 m.ledger now pRaw1 prev1 m.prev hl1 hl2
  refine ⟨m, pRaw1, prev1, hp1, hlook, hout, hm, hrh, hdh, hrf, hdf, ?_, ?_⟩
  · intro hnew
    rw [hrh]
    exact mapLen_insert_new _ now pRaw1 hnew
  · intro hnew
    rw [hdh]
    exact mapLen_insert_new _ now _ hnew


theorem monitorStart_records_once_witness :
    exampleCache.NoNil ∧
      (∀ e ∈ exampleCache.caches.entries, ∀ it ∈ e.2, (deref exampleHeap it.Data).isSome = true) ∧
      ((newLedger : Ledger Nat Nat Nat).raw.feed.length < feedCap) ∧
      ((newLedger : Ledger Nat Nat Nat).reducer.feed.length < feedCap) ∧
      ∃ m pRaw out, exampleCache.copyRaw = some pRaw ∧
        (∀ k, (pRaw.lookup k).map some = exampleCache.caches.lookup k) ∧
        reduce exampleHeap (SetReducer (newLedger : Ledger Nat Nat Nat) (fun x => x + 1)).reducer
          pRaw rangeReverse = some out ∧
        monitorStart exampleHeap exampleCache
          (SetReducer (newLedger : Ledger Nat Nat Nat) (fun x => x + 1)) 100 rangeReverse = some m ∧
        m.ledger.raw.history = (newLedger : Ledger Nat Nat Nat).raw.history.insert (100 : Time) pRaw ∧
        m.ledger.reducer.history
          = (newLedger : Ledger Nat Nat Nat).reducer.history.insert (100 : Time) (sortSlice out) ∧
        m.ledger.raw.feed = (newLedger : Ledger Nat Nat Nat).raw.feed
          ++ [(newLedger : Ledger Nat Nat Nat).raw.history.insert (100 : Time) pRaw] ∧
        m.ledger.reducer.feed = (newLedger : Ledger Nat Nat Nat).reducer.feed
          ++ [{ CreatedAt := 100, Cache := sortSlice out }] ∧
        ((100 : Time) ∉ (newLedger : Ledger Nat Nat Nat).raw.history →
          mapLen m.ledger.raw.history = mapLen (newLedger : Ledger Nat Nat Nat).raw.history + 1) ∧
        ((100 : Time) ∉ (newLedger : Ledger Nat Nat Nat).reducer.history →
          mapLen m.ledger.reducer.history
            = mapLen (newLedger : Ledger Nat Nat Nat).reducer.history + 1) :=
  ⟨by decide, by decide, by decide, by decide,
    monitorStart_records_once exampleHeap exampleCache newLedger (fun x => x + 1) 100 rangeReverse
      (by decide) (by decide) (by decide) (by decide)⟩

theorem snapshot_reflects_store (c : Cache K) (snapshot : RawSnapshot K)
    (hsnap : c.copyRaw = some snapshot) :
    ∀ k, (snapshot.lookup k).map some = c.caches.lookup k := by
  have hc : c.NoNil := noNil_of_derefAll c.caches.entries ∅ snapshot hsnap
  obtain ⟨m, hm, hlook, _⟩ := getAll_of_noNil c hc
  have hm1 : c.copyRaw = some m := hm
  have : m = snapshot := Option.some.inj (hm1.symm.trans hsnap)
  exact this ▸ hlook

/-- C15: a pass of the loop of `monitorChanges` that detects a change and returns has
written one entry into each history, both under the `time.Now()` of the pass: the raw
snapshot of the pass, which holds what the item store holds at the pass, and the sorted
reduction of that snapshot, which is the new `prev`; each history has at most one entry
more.  Hence after the start-up on a new cache and any run of passes both histories hold
entries under the same timestamps. -/
theorem cycle_appends_one_entry_each {T U : Type} [DecidableEq U]
    (h : Heap T) (c : Cache K) (now : Time) (range : RangeOrder K Item) (m m1 : Monitor K T U)
    (snapshot : RawSnapshot K) (current : List (reducerCache K U))
    (hsnap : c.copyRaw = some snapshot)
    (hcur : reduce h m.ledger.reducer snapshot range = some current)
    (hchange : m.prev ≠ current)
    (hdone : monitorCycle h c now range m = some m1)
    (h0 : Heap T) (c0 : Cache K) (f : T → U) (now0 : Time) (range0 : RangeOrder K Item)
    (m0 mN : Monitor K T U) (passes : List (Pass K T))
    (hstart : monitorStart h0 c0 (SetReducer newLedger f) now0 range0 = some m0)
    (hrun : monitorRun passes m0 = some mN) :
    (m1.ledger.raw.history = m.ledger.raw.history.insert now snapshot ∧
      m1.ledger.reducer.history = m.ledger.reducer.history.insert now (sortSlice current) ∧
      m1.prev = sortSlice current ∧
      (∀ k, (snapshot.lookup k).map some = c.caches.lookup k) ∧
      mapLen m1.ledger.raw.history ≤ mapLen m.ledger.raw.history + 1 ∧
      mapLen m1.ledger.reducer.history ≤ mapLen m.ledger.reducer.history + 1) ∧
    (∀ t, t ∈ mN.ledger.raw.history ↔ t ∈ mN.ledger.reducer.history) := by
  constructor
  · obtain ⟨snapshot1, current1, hs1, hc1, hcase⟩ := monitorCycle_inv h c now range m m1 hdone
    have e1 : snapshot1 = snapshot := Option.some.inj (hs1.symm.trans hsnap)
    subst e1
    have e2 : current1 = current := Option.some.inj (hc1.symm.trans hcur)
    subst e2
    rcases hcase with ⟨heq, _⟩ | ⟨_, l1, h1, h2⟩
    · exact absurd heq hchange
    · obtain ⟨hprev, hraw, _, _, hred, _, _⟩ :=
        record_change m.ledger l1 m1.ledger now snapshot1 current1 m1.prev h1 h2
      refine ⟨hraw, hred, hprev, snapshot_reflects_store c snapshot1 hsnap, ?_, ?_⟩
      · rw [hraw]; exact mapLen_insert_le _ now snapshot1
      · rw [hred]; exact mapLen_insert_le _ now _
  · obtain ⟨pRaw, prev, l1, _, _, h1, h2⟩ := monitorStart_inv h0 c0 _ now0 range0 m0 hstart
    have hstartAgree : ∀ t, t ∈ m0.ledger.raw.history ↔ t ∈ m0.ledger.reducer.history :=
      agree_of_record _ l1 m0.ledger now0 pRaw prev m0.prev h1 h2
        (fun t => by simp [SetReducer, newLedger])
    exact agree_of_monitorRun passes m0 mN hrun hstartAgree

theorem cycle_appends_one_entry_each_witness :
    exampleCache3.copyRaw
        = some (AList.insert 1 ⟨5, some 0⟩ (AList.insert 2 ⟨6, some 1⟩ (AList.insert 3 ⟨7, some 0⟩ ∅))) ∧
      reduce exampleHeap startedMonitor.ledger.reducer
          (AList.insert 1 ⟨5, some 0⟩ (AList.insert 2 ⟨6, some 1⟩ (AList.insert 3 ⟨7, some 0⟩ ∅)))
          rangeEntries
        = some [⟨1, 5, 11⟩, ⟨2, 6, 21⟩, ⟨3, 7, 11⟩] ∧
      startedMonitor.prev ≠ [⟨1, 5, 11⟩, ⟨2, 6, 21⟩, ⟨3, 7, 11⟩] ∧
      monitorCycle exampleHeap exampleCache3 101 rangeEntries startedMonitor = some cycledMonitor ∧
      monitorStart exampleHeap exampleCache (SetReducer newLedger (fun x => x + 1)) 100 rangeEntries
        = some startedMonitor ∧
      monitorRun examplePasses startedMonitor = some ranMonitor ∧
      ((cycledMonitor.ledger.raw.history = startedMonitor.ledger.raw.history.insert (101 : Time)
            (AList.insert 1 ⟨5, some 0⟩ (AList.insert 2 ⟨6, some 1⟩ (AList.insert 3 ⟨7, some 0⟩ ∅))) ∧
          cycledMonitor.ledger.reducer.history
            = startedMonitor.ledger.reducer.history.insert (101 : Time)
                (sortSlice [⟨1, 5, 11⟩, ⟨2, 6, 21⟩, ⟨3, 7, 11⟩]) ∧
          cycledMonitor.prev = sortSlice [⟨1, 5, 11⟩, ⟨2, 6, 21⟩, ⟨3, 7, 11⟩] ∧
          (∀ k, ((AList.insert 1 ⟨5, some 0⟩ (AList.insert 2 ⟨6, some 1⟩
              (AList.insert 3 ⟨7, some 0⟩ ∅)) : RawSnapshot Nat).lookup k).map some
            = exampleCache3.caches.lookup k) ∧
          mapLen cycledMonitor.ledger.raw.history ≤ mapLen startedMonitor.ledger.raw.history + 1 ∧
          mapLen cycledMonitor.ledger.reducer.history
            ≤ mapLen startedMonitor.ledger.reducer.history + 1) ∧
        (∀ t, t ∈ ranMonitor.ledger.raw.history ↔ t ∈ ranMonitor.ledger.reducer.history)) :=
  ⟨rfl, by decide, by decide, rfl, rfl, rfl,
    cycle_appends_one_entry_each exampleHeap exampleCache3 101 rangeEntries startedMonitor
      cycledMonitor
      (AList.insert 1 ⟨5, some 0⟩ (AList.insert 2 ⟨6, some 1⟩ (AList.insert 3 ⟨7, some 0⟩ ∅)))
      [⟨1, 5, 11⟩, ⟨2, 6, 21⟩, ⟨3, 7, 11⟩] (by rfl) (by decide) (by decide) (by rfl)
      exampleHeap exampleCache (fun x => x + 1) 100 rangeEntries startedMonitor ranMonitor
      examplePasses (by rfl) (by rfl)⟩


/-- C16 as stated fails: the start-up on the example sends the raw history on the raw feed
before it writes the reducer history; the order is raw record, raw publish, reduced
record, reduced publish, not raw record, reduced record, raw publish, reduced publish. -/
theorem raw_publish_precedes_reduced_record :
    (monitorStart exampleHeap exampleCache exampleLedger 100 rangeEntries).map
        (fun m => m.ledger.effects)
      = some [Effect.rawRecord 100, Effect.rawPublish 100, Effect.reducedRecord 100,
          Effect.reducedPublish 100] ∧
    (monitorStart exampleHeap exampleCache exampleLedger 100 rangeEntries).map
        (fun m => m.ledger.effects)
      ≠ some [Effect.rawRecord 100, Effect.reducedRecord 100, Effect.rawPublish 100,
          Effect.reducedPublish 100] := by
  decide

/-- C16 amended: for every change that `monitorChanges` records, the initial one included,
the four effects occur in the order raw record, raw publish, reduced record, reduced
publish: each history write precedes the feed send of its own kind, and the raw feed send
precedes the reducer history write.  A pass of the loop adds either nothing or these four
effects to the effects so far. -/
theorem record_then_publish_per_kind {T U : Type} [DecidableEq U]
    (h0 : Heap T) (c0 : Cache K) (l : Ledger K T U) (now0 : Time) (range0 : RangeOrder K Item)
    (m0 : Monitor K T U) (hstart : monitorStart h0 c0 l now0 range0 = some m0)
    (h : Heap T) (c : Cache K) (now : Time) (range : RangeOrder K Item) (m m1 : Monitor K T U)
    (hdone : monitorCycle h c now range m = some m1) :
    m0.ledger.effects = l.effects ++ [Effect.rawRecord now0, Effect.rawPublish now0,
        Effect.reducedRecord now0, Effect.reducedPublish now0] ∧
      (m1.ledger.effects = m.ledger.effects ∨
        m1.ledger.effects = m.ledger.effects ++ [Effect.rawRecord now, Effect.rawPublish now,
          Effect.reducedRecord now, Effect.reducedPublish now]) := by
  constructor
  · obtain ⟨pRaw, prev, l1, _, _, h1, h2⟩ := monitorStart_inv h0 c0 l now0 range0 m0 hstart
    exact (record_change l l1 m0.ledger now0 pRaw prev m0.prev h1 h2).2.2.2.2.2.2
  · obtain ⟨snapshot, current, _, _, hcase⟩ := monitorCycle_inv h c now range m m1 hdone
    rcases hcase with ⟨_, rfl⟩ | ⟨_, l1, h1, h2⟩
    · exact Or.inl rfl
    · exact Or.inr (record_change m.ledger l1 m1.ledger now snapshot current m1.prev h1 h2).2.2.2.2.2.2

theorem record_then_publish_per_kind_witness :
    monitorStart exampleHeap exampleCache exampleLedger 100 rangeEntries = some startedMonitor ∧
      monitorCycle exampleHeap exampleCache3 101 rangeEntries startedMonitor = some cycledMonitor ∧
      startedMonitor.ledger.effects = exampleLedger.effects ++ [Effect.rawRecord 100,
        Effect.rawPublish 100, Effect.reducedRecord 100, Effect.reducedPublish 100] ∧
      (cycledMonitor.ledger.effects = startedMonitor.ledger.effects ∨
        cycledMonitor.ledger.effects = startedMonitor.ledger.effects ++ [Effect.rawRecord 101,
          Effect.rawPublish 101, Effect.reducedRecord 101, Effect.reducedPublish 101]) :=
  ⟨rfl, rfl,
    record_then_publish_per_kind exampleHeap exampleCache exampleLedger 100 rangeEntries
      startedMonitor (by rfl) exampleHeap exampleCache3 101 rangeEntries startedMonitor
      cycledMonitor (by rfl)⟩

/-! ## Reading the histories back -/

theorem mem_ReducerHistory {T U : Type} (l : Ledger K T U) (e : reducerHistory K U) :
    e ∈ ReducerHistory l ↔ l.reducer.history.lookup e.CreatedAt = some e.Cache := by
  have hiff : l.reducer.history.lookup e.CreatedAt = some e.Cache ↔
      (Sigma.mk e.CreatedAt e.Cache : Sigma fun _ : Time => List (reducerCache K U))
        ∈ l.reducer.history.entries := AList.mem_lookup_iff
  rw [hiff]
  simp only [ReducerHistory, List.mem_map]
  constructor
  · rintro ⟨x, hx, rfl⟩
    exact hx
  · intro hx
    exact ⟨⟨e.CreatedAt, e.Cache⟩, hx, rfl⟩

/-- After `cacheRaw` and `cacheReduction` at time `t` the newest message of the raw feed is
the raw history, which holds the snapshot under `t`, and the newest message of the reducer
feed is the one entry of `ReducerHistory()` whose `CreatedAt` is `t`. -/
theorem round_trip_of_record {T U : Type} (l l1 l2 : Ledger K T U) (t : Time)
    (copy : RawSnapshot K) (r s : List (reducerCache K U)) (h1 : cacheRaw l t copy = some l1)
    (h2 : cacheReduction l1 t r = some (l2, s)) :
    l2.raw.feed.getLast? = some (RawHistory l2) ∧
      (RawHistory l2).lookup t = some copy ∧
      l2.reducer.feed.getLast? = some { CreatedAt := t, Cache := s } ∧
      ({ CreatedAt := t, Cache := s } : reducerHistory K U) ∈ ReducerHistory l2 ∧
      ∀ e ∈ ReducerHistory l2, e.CreatedAt = t → e = { CreatedAt := t, Cache := s } := by
  obtain ⟨hs, hraw, hrawFeed, _, hred, hredFeed, _⟩ := record_change l l1 l2 t copy r s h1 h2
  have hlook : l2.reducer.history.lookup t = some s := by
    rw [hred, hs]; exact AList.lookup_insert _
  refine ⟨?_, ?_, ?_, ?_, ?_⟩
  · rw [hrawFeed, List.getLast?_append, RawHistory, hraw]; rfl
  · rw [RawHistory, hraw]; exact AList.lookup_insert _
  · rw [hredFeed, List.getLast?_append, hs]; rfl
  · exact (mem_ReducerHistory l2 _).mpr hlook
  · intro e he ht
    have h3 := (mem_ReducerHistory l2 e).mp he
    rw [ht, hlook] at h3
    cases e
    simp only at ht h3
    rw [ht, ← Option.some.inj h3]

/-! ## Properties of the histories and feeds -/

/-- C17 as stated fails for the raw feed: after the start-up at `100` and a pass at `101`
that finds a third key, the message sent on the raw feed for the change at `101` is a map
with two entries, the snapshots of `100` and of `101`, not the pair of `101` and its
snapshot. -/
theorem raw_feed_message_is_whole_history :
    ((monitorStart exampleHeap exampleCache exampleLedger 100 rangeEntries).bind
        (monitorCycle exampleHeap exampleCache3 101 rangeEntries)).map
      (fun m => (m.ledger.raw.feed.map mapLen,
        m.ledger.raw.feed.map (fun msg => (msg.lookup 100).map mapLen),
        m.ledger.raw.feed.map (fun msg => (msg.lookup 101).map mapLen)))
    = some ([1, 2], [some 2, some 2], [none, some 3]) := by
  decide

/-- C17 amended: for every change that `monitorChanges` records at a time `t`, in the
start-up or in a pass of the loop, the message sent on the raw feed is the whole raw history
as `RawHistory()` returns it after the change, and its entry at `t` is the raw snapshot of
the change; the message sent on the reducer feed is `{t, reduced snapshot}` and equals
field for field the one entry of `ReducerHistory()` whose `CreatedAt` is `t`. -/
theorem feed_matches_history {T U : Type} [DecidableEq U]
    (h0 : Heap T) (c0 : Cache K) (l : Ledger K T U) (now0 : Time) (range0 : RangeOrder K Item)
    (m0 : Monitor K T U) (pRaw : RawSnapshot K) (hp : c0.copyRaw = some pRaw)
    (hstart : monitorStart h0 c0 l now0 range0 = some m0)
    (h : Heap T) (c : Cache K) (now : Time) (range : RangeOrder K Item) (m m1 : Monitor K T U)
    (snapshot : RawSnapshot K) (current : List (reducerCache K U))
    (hsnap : c.copyRaw = some snapshot)
    (hcur : reduce h m.ledger.reducer snapshot range = some current)
    (hchange : m.prev ≠ current)
    (hdone : monitorCycle h c now range m = some m1) :
    (m0.ledger.raw.feed.getLast? = some (RawHistory m0.ledger) ∧
      (RawHistory m0.ledger).lookup now0 = some pRaw ∧
      m0.ledger.reducer.feed.getLast? = some { CreatedAt := now0, Cache := m0.prev } ∧
      ({ CreatedAt := now0, Cache := m0.prev } : reducerHistory K U) ∈ ReducerHistory m0.ledger ∧
      ∀ e ∈ ReducerHistory m0.ledger, e.CreatedAt = now0 →
        e = { CreatedAt := now0, Cache := m0.prev }) ∧
    (m1.ledger.raw.feed.getLast? = some (RawHistory m1.ledger) ∧
      (RawHistory m1.ledger).lookup now = some snapshot ∧
      m1.ledger.reducer.feed.getLast? = some { CreatedAt := now, Cache := sortSlice current } ∧
      ({ CreatedAt := now, Cache := sortSlice current } : reducerHistory K U)
        ∈ ReducerHistory m1.ledger ∧
      ∀ e ∈ ReducerHistory m1.ledger, e.CreatedAt = now →
        e = { CreatedAt := now, Cache := sortSlice current }) := by
  constructor
  · obtain ⟨pRaw1, prev, l1, hp1, _, h1, h2⟩ := monitorStart_inv h0 c0 l now0 range0 m0 hstart
    have e1 : pRaw1 = pRaw := Option.some.inj (hp1.symm.trans hp)
    subst e1
    exact round_trip_of_record l l1 m0.ledger now0 pRaw1 prev m0.prev h1 h2
  · obtain ⟨snapshot1, current1, hs1, hc1, hcase⟩ := monitorCycle_inv h c now range m m1 hdone
    have e1 : snapshot1 = snapshot := Option.some.inj (hs1.symm.trans hsnap)
    subst e1
    have e2 : current1 = current := Option.some.inj (hc1.symm.trans hcur)
    subst e2
    rcases hcase with ⟨heq, _⟩ | ⟨_, l1, h1, h2⟩
    · exact absurd heq hchange
    · have hs := (record_change m.ledger l1 m1.ledger now snapshot1 current1 m1.prev h1 h2).1
      have := round_trip_of_record m.ledger l1 m1.ledger now snapshot1 current1 m1.prev h1 h2
      rw [hs] at this
      exact this


theorem feed_matches_history_witness :
    exampleCache.copyRaw = some (AList.insert 1 ⟨5, some 0⟩ (AList.insert 2 ⟨6, some 1⟩ ∅)) ∧
      monitorStart exampleHeap exampleCache exampleLedger 100 rangeEntries = some startedMonitor ∧
      exampleCache3.copyRaw
        = some (AList.insert 1 ⟨5, some 0⟩ (AList.insert 2 ⟨6, some 1⟩ (AList.insert 3 ⟨7, some 0⟩ ∅))) ∧
      reduce exampleHeap startedMonitor.ledger.reducer
          (AList.insert 1 ⟨5, some 0⟩ (AList.insert 2 ⟨6, some 1⟩ (AList.insert 3 ⟨7, some 0⟩ ∅)))
          rangeEntries
        = some [⟨1, 5, 11⟩, ⟨2, 6, 21⟩, ⟨3, 7, 11⟩] ∧
      startedMonitor.prev ≠ [⟨1, 5, 11⟩, ⟨2, 6, 21⟩, ⟨3, 7, 11⟩] ∧
      monitorCycle exampleHeap exampleCache3 101 rangeEntries startedMonitor = some cycledMonitor ∧
      ((startedMonitor.ledger.raw.feed.getLast? = some (RawHistory startedMonitor.ledger) ∧
          (RawHistory startedMonitor.ledger).lookup 100
            = some (AList.insert 1 ⟨5, some 0⟩ (AList.insert 2 ⟨6, some 1⟩ ∅)) ∧
          startedMonitor.ledger.reducer.feed.getLast?
            = some { CreatedAt := 100, Cache := startedMonitor.prev } ∧
          ({ CreatedAt := 100, Cache := startedMonitor.prev } : reducerHistory Nat Nat)
            ∈ ReducerHistory startedMonitor.ledger ∧
          ∀ e ∈ ReducerHistory startedMonitor.ledger, e.CreatedAt = 100 →
            e = { CreatedAt := 100, Cache := startedMonitor.prev }) ∧
        (cycledMonitor.ledger.raw.feed.getLast? = some (RawHistory cycledMonitor.ledger) ∧
          (RawHistory cycledMonitor.ledger).lookup 101
            = some (AList.insert 1 ⟨5, some 0⟩ (AList.insert 2 ⟨6, some 1⟩
                (AList.insert 3 ⟨7, some 0⟩ ∅))) ∧
          cycledMonitor.ledger.reducer.feed.getLast?
            = some { CreatedAt := 101,
                     Cache := sortSlice [⟨1, 5, 11⟩, ⟨2, 6, 21⟩, ⟨3, 7, 11⟩] } ∧
          ({ CreatedAt := 101, Cache := sortSlice [⟨1, 5, 11⟩, ⟨2, 6, 21⟩, ⟨3, 7, 11⟩] }
              : reducerHistory Nat Nat) ∈ ReducerHistory cycledMonitor.ledger ∧
          ∀ e ∈ ReducerHistory cycledMonitor.ledger, e.CreatedAt = 101 →
            e = { CreatedAt := 101,
                  Cache := sortSlice [⟨1, 5, 11⟩, ⟨2, 6, 21⟩, ⟨3, 7, 11⟩] })) :=
  ⟨rfl, rfl, rfl, by decide, by decide, rfl,
    feed_matches_history exampleHeap exampleCache exampleLedger 100 rangeEntries startedMonitor
      (AList.insert 1 ⟨5, some 0⟩ (AList.insert 2 ⟨6, some 1⟩ ∅)) (by rfl) (by rfl)
      exampleHeap exampleCache3 101 rangeEntries startedMonitor cycledMonitor
      (AList.insert 1 ⟨5, some 0⟩ (AList.insert 2 ⟨6, some 1⟩ (AList.insert 3 ⟨7, some 0⟩ ∅)))
      [⟨1, 5, 11⟩, ⟨2, 6, 21⟩, ⟨3, 7, 11⟩] (by rfl) (by decide) (by decide) (by rfl)⟩

/-! ## The histories are append-only under a strictly increasing clock -/

theorem receive_ledger_histories {T U : Type} (m : Monitor K T U) (n k : Nat) :
    (receive m n k).ledger.raw.history = m.ledger.raw.history ∧
      (receive m n k).ledger.reducer.history = m.ledger.reducer.history ∧
      (receive m n k).prev = m.prev := ⟨rfl, rfl, rfl⟩

/-- A pass at a time later than every timestamp of the histories keeps every entry and
adds no timestamp other than its own. -/
theorem monitorCycle_keeps_entries {T U : Type} [DecidableEq U] (h : Heap T) (c : Cache K)
    (now : Time) (range : RangeOrder K Item) (m m1 : Monitor K T U)
    (hdone : monitorCycle h c now range m = some m1)
    (hraw : ∀ t ∈ m.ledger.raw.history.keys, t < now)
    (hred : ∀ t ∈ m.ledger.reducer.history.keys, t < now) :
    (∀ t v, m.ledger.raw.history.lookup t = some v → m1.ledger.raw.history.lookup t = some v) ∧
      (∀ t v, m.ledger.reducer.history.lookup t = some v →
        m1.ledger.reducer.history.lookup t = some v) ∧
      (∀ t ∈ m1.ledger.raw.history.keys, t ∈ m.ledger.raw.history.keys ∨ t = now) ∧
      (∀ t ∈ m1.ledger.reducer.history.keys, t ∈ m.ledger.reducer.history.keys ∨ t = now) := by
  obtain ⟨snapshot, current, _, _, hcase⟩ := monitorCycle_inv h c now range m m1 hdone
  rcases hcase with ⟨_, rfl⟩ | ⟨_, l1, h1, h2⟩
  · exact ⟨fun _ _ hv => hv, fun _ _ hv => hv, fun _ ht => Or.inl ht, fun _ ht => Or.inl ht⟩
  · obtain ⟨_, hrh, _, _, hdh, _, _⟩ :=
      record_change m.ledger l1 m1.ledger now snapshot current m1.prev h1 h2
    refine ⟨?_, ?_, ?_, ?_⟩
    · intro t v hv
      have hmem : t ∈ m.ledger.raw.history.keys :=
        AList.mem_keys.mp (AList.lookup_isSome.mp (by rw [hv]; rfl))
      have hne : t ≠ now := Nat.ne_of_lt (hraw t hmem)
      rw [hrh, AList.lookup_insert_ne hne]
      exact hv
    · intro t v hv
      have hmem : t ∈ m.ledger.reducer.history.keys :=
        AList.mem_keys.mp (AList.lookup_isSome.mp (by rw [hv]; rfl))
      have hne : t ≠ now := Nat.ne_of_lt (hred t hmem)
      rw [hdh, AList.lookup_insert_ne hne]
      exact hv
    · intro t ht
      rw [hrh] at ht
      rcases (AList.mem_insert _).mp (AList.mem_keys.mpr ht) with h3 | h3
      · exact Or.inr h3
      · exact Or.inl (AList.mem_keys.mp h3)
    · intro t ht
      rw [hdh] at ht
      rcases (AList.mem_insert _).mp (AList.mem_keys.mpr ht) with h3 | h3
      · exact Or.inr h3
      · exact Or.inl (AList.mem_keys.mp h3)

theorem monitorRun_keeps_entries {T U : Type} [DecidableEq U] (passes : List (Pass K T)) :
    ∀ m mN : Monitor K T U, monitorRun passes m = some mN →
      (∀ p ∈ passes, (∀ t ∈ m.ledger.raw.history.keys, t < p.now) ∧
        (∀ t ∈ m.ledger.reducer.history.keys, t < p.now)) →
      (passes.map (fun p => p.now)).Pairwise (fun a b => a < b) →
      (∀ t v, m.ledger.raw.history.lookup t = some v → mN.ledger.raw.history.lookup t = some v) ∧
        (∀ t v, m.ledger.reducer.history.lookup t = some v →
          mN.ledger.reducer.history.lookup t = some v) := by
  induction passes with
  | nil =>
    intro m mN hrun _ _
    simp only [monitorRun, Option.some.injEq] at hrun
    subst hrun
    exact ⟨fun _ _ hv => hv, fun _ _ hv => hv⟩
  | cons p ps ih =>
    intro m mN hrun hlater hinc
    simp only [monitorRun] at hrun
    split at hrun
    · exact Option.noConfusion hrun
    · next m2 hm2 =>
      have hp := hlater p (List.mem_cons_self _ _)
      obtain ⟨k1, k2, n1, n2⟩ := monitorCycle_keeps_entries p.heap p.cache p.now p.range
        (receive m p.rawTaken p.reducedTaken) m2 hm2 hp.1 hp.2
      simp only [List.map_cons, List.pairwise_cons] at hinc
      have hlater2 : ∀ q ∈ ps, (∀ t ∈ m2.ledger.raw.history.keys, t < q.now) ∧
          (∀ t ∈ m2.ledger.reducer.history.keys, t < q.now) := by
        intro q hq
        have hq1 := hlater q (List.mem_cons_of_mem _ hq)
        have hpq : p.now < q.now := hinc.1 q.now (List.mem_map_of_mem _ hq)
        constructor
        · intro t ht
          rcases n1 t ht with h3 | h3
          · exact hq1.1 t h3
          · exact h3 ▸ hpq
        · intro t ht
          rcases n2 t ht with h3 | h3
          · exact hq1.2 t h3
          · exact h3 ▸ hpq
      obtain ⟨r1, r2⟩ := ih m2 mN hrun hlater2 hinc.2
      exact ⟨fun t v hv => r1 t v (k1 t v hv), fun t v hv => r2 t v (k2 t v hv)⟩

/-- C18 as stated fails: the start-up records at the clock reading `100`; the next pass
finds a third key and reads `100` from the clock again.  Its writes replace the entries of
both histories under `100`: the raw snapshot there had two items and has three now, and
the histories still have one entry each. -/
theorem equal_clock_readings_overwrite :
    (monitorStart exampleHeap exampleCache exampleLedger 100 rangeEntries).map
        (fun m => ((m.ledger.raw.history.lookup 100).map mapLen,
          (m.ledger.reducer.history.lookup 100).map List.length))
      = some (some 2, some 2) ∧
    ((monitorStart exampleHeap exampleCache exampleLedger 100 rangeEntries).bind
        (monitorCycle exampleHeap exampleCache3 100 rangeEntries)).map
        (fun m => ((m.ledger.raw.history.lookup 100).map mapLen,
          (m.ledger.reducer.history.lookup 100).map List.length,
          mapLen m.ledger.raw.history, mapLen m.ledger.reducer.history))
      = some (some 3, some 3, 1, 1) := by
  decide

/-- C18 amended: in every run of passes of `monitorChanges` in which each pass reads from
the clock a time strictly later than the pass before it and than every timestamp already in
the histories, the histories are append-only: every entry that the raw or the reducer
history holds under a timestamp before the run is there, with the same value, after it. -/
theorem histories_append_only {T U : Type} [DecidableEq U] (passes : List (Pass K T))
    (m mN : Monitor K T U) (hrun : monitorRun passes m = some mN)
    (hlater : ∀ p ∈ passes, (∀ t ∈ m.ledger.raw.history.keys, t < p.now) ∧
      (∀ t ∈ m.ledger.reducer.history.keys, t < p.now))
    (hinc : (passes.map (fun p => p.now)).Pairwise (fun a b => a < b)) :
    (∀ t v, (RawHistory m.ledger).lookup t = some v → (RawHistory mN.ledger).lookup t = some v) ∧
      (∀ t v, m.ledger.reducer.history.lookup t = some v →
        mN.ledger.reducer.history.lookup t = some v) ∧
      (∀ e ∈ ReducerHistory m.ledger, e ∈ ReducerHistory mN.ledger) := by
  obtain ⟨r1, r2⟩ := monitorRun_keeps_entries passes m mN hrun hlater hinc
  refine ⟨r1, r2, ?_⟩
  intro e he
  exact (mem_ReducerHistory mN.ledger e).mpr (r2 _ _ ((mem_ReducerHistory m.ledger e).mp he))

theorem histories_append_only_witness :
    monitorRun examplePasses startedMonitor = some ranMonitor ∧
      (∀ p ∈ examplePasses, (∀ t ∈ startedMonitor.ledger.raw.history.keys, t < p.now) ∧
        (∀ t ∈ startedMonitor.ledger.reducer.history.keys, t < p.now)) ∧
      (examplePasses.map (fun p => p.now)).Pairwise (fun a b => a < b) ∧
      ((∀ t v, (RawHistory startedMonitor.ledger).lookup t = some v →
          (RawHistory ranMonitor.ledger).lookup t = some v) ∧
        (∀ t v, startedMonitor.ledger.reducer.history.lookup t = some v →
          ranMonitor.ledger.reducer.history.lookup t = some v) ∧
        (∀ e ∈ ReducerHistory startedMonitor.ledger, e ∈ ReducerHistory ranMonitor.ledger)) :=
  ⟨rfl, by decide, by decide,
    histories_append_only examplePasses startedMonitor ranMonitor (by rfl) (by decide)
      (by decide)⟩


/-! ## Properties of the commands -/

/-- C19: `Execute(key)` returns an error exactly when no entry is assigned under `key`.
When a function `f` is assigned under `key`, `Execute(key)` calls `f` once, calls nothing
else and returns `nil`; when nothing is assigned it calls nothing.  Whenever `Execute`
returns, the collection is the one it was called on.  (A `nil` function under `key` makes
the call panic: no error is returned and the key is assigned.) -/
theorem execute_error_iff_unassigned {F : Type} (c : Commands F) (key : CommandKey) :
    ((∃ r, c.Execute key = some r ∧ r.err ≠ none) ↔ key ∉ c.list) ∧
      (∀ f, c.list.lookup key = some (some f) →
        c.Execute key = some { err := none, calls := [f], commands := c }) ∧
      (key ∉ c.list →
        c.Execute key
          = some { err := some (CommandError.noCommand key), calls := [], commands := c }) ∧
      (∀ r, c.Execute key = some r → r.commands = c) := by
  refine ⟨?_, ?_, ?_, ?_⟩
  · constructor
    · rintro ⟨r, hr, herr⟩
      intro hmem
      unfold Commands.Execute at hr
      split at hr
      · next hnone => exact AList.lookup_eq_none.mp hnone hmem
      · exact Option.noConfusion hr
      · have := Option.some.inj hr
        subst this
        exact herr rfl
    · intro hnot
      refine ⟨{ err := some (CommandError.noCommand key), calls := [], commands := c },
        by simp only [Commands.Execute, AList.lookup_eq_none.mpr hnot], ?_⟩
      simp
  · intro f hf
    simp only [Commands.Execute, hf]
  · intro hnot
    simp only [Commands.Execute, AList.lookup_eq_none.mpr hnot]
  · intro r hr
    unfold Commands.Execute at hr
    split at hr
    · exact (Option.some.inj hr) ▸ rfl
    · exact Option.noConfusion hr
    · exact (Option.some.inj hr) ▸ rfl

theorem execute_error_iff_unassigned_witness :
    ((NewCommands : Commands Nat).Assign (AList.singleton "test" (some 7)) rangeEntries).Execute
        "test"
      = some { err := none, calls := [7],
               commands := (NewCommands : Commands Nat).Assign
                 (AList.singleton "test" (some 7)) rangeEntries } ∧
    ((NewCommands : Commands Nat).Assign (AList.singleton "test" (some 7)) rangeEntries).Execute
        "invalid"
      = some { err := some (CommandError.noCommand "invalid"), calls := [],
               commands := (NewCommands : Commands Nat).Assign
                 (AList.singleton "test" (some 7)) rangeEntries } :=
  ⟨(execute_error_iff_unassigned _ "test").2.1 7 (by decide),
    (execute_error_iff_unassigned _ "invalid").2.2.1 (by decide)⟩

/-! ## Properties of the stores -/

/-- C20: for every store registered under `s` and every cache key `c`: when the store
holds no cache under `c`, `NewCache[T](s, c)` returns a new empty cache and registers it
under `c` in that store, every other cache key and every other store as before; when the
store holds a cache under `c`, `NewCache` returns an error and changes nothing.  So a
second `NewCache` with the same store and cache key fails, for any type argument. -/
theorem newCache_once_per_key {F : Type} (mgr : storeManager K F) (T T2 : GoType) (s : StoreKey)
    (c : K) (store : Store K F) (hs : mgr.stores.lookup s = some store) :
    (c ∉ store.data →
      (NewCache mgr T s c).1 = Except.ok newCache ∧
      ∃ store1, (NewCache mgr T s c).2.stores.lookup s = some store1 ∧
        store1.data.lookup c = some { elem := T, cache := newCache } ∧
        (∀ c1, c1 ≠ c → store1.data.lookup c1 = store.data.lookup c1) ∧
        ∀ s1, s1 ≠ s → (NewCache mgr T s c).2.stores.lookup s1 = mgr.stores.lookup s1) ∧
    (c ∈ store.data → NewCache mgr T s c = (Except.error (StoreError.cacheExists c), mgr)) ∧
    (NewCache (NewCache mgr T s c).2 T2 s c).1 = Except.error (StoreError.cacheExists c) := by
  have hnew : c ∉ store.data → NewCache mgr T s c = (Except.ok newCache,
      { mgr with stores :=
          mgr.stores.insert s (store.setCache c { elem := T, cache := newCache }) }) := by
    intro hc
    simp only [NewCache, UseStore, hs, Store.getCache, AList.lookup_eq_none.mpr hc]
  have hold : ∀ (mgr1 : storeManager K F) (st : Store K F) (T1 : GoType),
      mgr1.stores.lookup s = some st → c ∈ st.data →
      NewCache mgr1 T1 s c = (Except.error (StoreError.cacheExists c), mgr1) := by
    intro mgr1 st T1 hst hc
    obtain ⟨d, hd⟩ := Option.isSome_iff_exists.mp (AList.lookup_isSome.mpr hc)
    simp only [NewCache, UseStore, hst, Store.getCache, hd]
  refine ⟨?_, hold mgr store T hs, ?_⟩
  · intro hc
    rw [hnew hc]
    refine ⟨rfl, store.setCache c { elem := T, cache := newCache }, AList.lookup_insert _,
      AList.lookup_insert _, ?_, ?_⟩
    · intro c1 hc1
      exact AList.lookup_insert_ne hc1
    · intro s1 hs1
      exact AList.lookup_insert_ne hs1
  · by_cases hc : c ∈ store.data
    · rw [hold mgr store T hs hc]
      exact congrArg Prod.fst (hold mgr store T2 hs hc)
    · rw [hnew hc]
      exact congrArg Prod.fst (hold _ (store.setCache c { elem := T, cache := newCache }) T2
        (AList.lookup_insert _) ((AList.mem_insert _).mpr (Or.inl rfl)))


theorem newCache_once_per_key_witness :
    exampleManager.stores.lookup "test" = some exampleStore ∧
      ("test" ∉ exampleStore.data →
        (NewCache exampleManager "int" "test" "test").1 = Except.ok newCache ∧
        ∃ store1, (NewCache exampleManager "int" "test" "test").2.stores.lookup "test"
            = some store1 ∧
          store1.data.lookup "test" = some { elem := "int", cache := newCache } ∧
          (∀ c1, c1 ≠ "test" → store1.data.lookup c1 = exampleStore.data.lookup c1) ∧
          ∀ s1, s1 ≠ "test" →
            (NewCache exampleManager "int" "test" "test").2.stores.lookup s1
              = exampleManager.stores.lookup s1) ∧
      ("test" ∈ exampleStore.data →
        NewCache exampleManager "int" "test" "test"
          = (Except.error (StoreError.cacheExists "test"), exampleManager)) ∧
      (NewCache (NewCache exampleManager "int" "test" "test").2 "string" "test" "test").1
        = Except.error (StoreError.cacheExists "test") :=
  ⟨rfl, newCache_once_per_key exampleManager "int" "string" "test" "test" exampleStore (by rfl)⟩

/-! ## Properties of `Mnemo.UseStore` -/

/-- C21 as stated fails: the store "test" of the examples has a `nil` pointer in its field
`mnemo`, so it does not belong to the instance at address `1`; after `WithStores("test")`
on that instance `UseStore("test")` returns the store all the same, while before it
returns the error `notOwned`. -/
theorem useStore_after_withStores_skips_owner_check :
    exampleStore.mnemo ≠ some 1 ∧
      (Mnemo.UseStore 1 New exampleManager "test").1 = Except.error MnemoError.notOwned ∧
      (Mnemo.UseStore 1 (New.WithStores ["test"]) exampleManager "test").1
        = Except.ok exampleStore :=
  ⟨by decide, rfl, rfl⟩

/-- C21 amended: `Mnemo.UseStore(key)` on the instance `m` returns the error of `UseStore`
whenever no store is registered under `key`.  For a key that is not in `m.stores` it returns
an error whenever the `mnemo` pointer of the registered store is not `m`, and otherwise
returns the store and adds the key to `m.stores`.  For a key that is in `m.stores`, as after
`WithStores`, it returns the registered store without a look at its `mnemo` pointer. -/
theorem useStore_checks_owner_of_new_keys {F : Type} (self : Nat) (m : Mnemo)
    (mgr : storeManager K F) (key : StoreKey) :
    (mgr.stores.lookup key = none →
      Mnemo.UseStore self m mgr key
        = (Except.error (MnemoError.store (StoreError.noStore key)), m)) ∧
    (∀ s, mgr.stores.lookup key = some s → key ∉ m.stores → s.mnemo ≠ some self →
      Mnemo.UseStore self m mgr key = (Except.error MnemoError.notOwned, m)) ∧
    (∀ s, mgr.stores.lookup key = some s → key ∉ m.stores → s.mnemo = some self →
      Mnemo.UseStore self m mgr key
        = (Except.ok s, { m with stores := m.stores.insert key true })) ∧
    (∀ s, mgr.stores.lookup key = some s → key ∈ m.stores →
      Mnemo.UseStore self m mgr key = (Except.ok s, m)) := by
  refine ⟨?_, ?_, ?_, ?_⟩
  · intro hnone
    unfold Mnemo.UseStore
    cases hm : m.stores.lookup key <;> simp [packageUseStore, UseStore, hnone]
  · intro s hs hk hown
    simp [Mnemo.UseStore, AList.lookup_eq_none.mpr hk, packageUseStore, UseStore, hs, hown]
  · intro s hs hk hown
    simp [Mnemo.UseStore, AList.lookup_eq_none.mpr hk, packageUseStore, UseStore, hs, hown]
  · intro s hs hk
    obtain ⟨b, hb⟩ := Option.isSome_iff_exists.mp (AList.lookup_isSome.mpr hk)
    simp [Mnemo.UseStore, hb, packageUseStore, UseStore, hs]

theorem useStore_checks_owner_of_new_keys_witness :
    Mnemo.UseStore 1 (New.WithStores ["test"]) exampleManager "none"
        = (Except.error (MnemoError.store (StoreError.noStore "none")), New.WithStores ["test"]) ∧
      Mnemo.UseStore 1 New exampleManager "test" = (Except.error MnemoError.notOwned, New) ∧
      Mnemo.UseStore 1 (New.WithStores ["test"]) exampleManager "test"
        = (Except.ok exampleStore, New.WithStores ["test"]) :=
  ⟨(useStore_checks_owner_of_new_keys 1 (New.WithStores ["test"]) exampleManager "none").1
      (by rfl),
    (useStore_checks_owner_of_new_keys 1 New exampleManager "test").2.1 exampleStore (by rfl)
      (by decide) (by decide),
    (useStore_checks_owner_of_new_keys 1 (New.WithStores ["test"]) exampleManager "test").2.2.2
      exampleStore (by rfl) (by decide)⟩

/-! ## Properties of the slice functions -/

theorem reduceLoop_eq_foldl {T U : Type} (f : U → T → U) (xs : List T) :
    ∀ a, reduceLoop f a xs = xs.foldl f a := by
  induction xs with
  | nil => intro a; rfl
  | cons x xs ih => intro a; exact ih (f a x)

/-- C22: for every slice `xs` and function `f`, `ReduceSlice(xs, f)` is the left fold of `f`
over `xs` in index order from the zero value: the zero value for the empty slice, and for
`xs` followed by `x` the value of `f` at the result for `xs` and `x`.  The sum of
`[1, 2, 3, 4, 5]` is `15`. -/
theorem reduceSlice_left_fold {T U : Type} (zero : U) (xs : List T) (x : T) (f : U → T → U) :
    ReduceSlice zero (some xs) f = some (xs.foldl f zero) ∧
      ReduceSlice zero (some ([] : List T)) f = some zero ∧
      ReduceSlice zero (some (xs ++ [x])) f
        = (ReduceSlice zero (some xs) f).map (fun a => f a x) ∧
      ReduceSlice (0 : Int) (some [1, 2, 3, 4, 5]) (fun a b => a + b) = some 15 := by
  refine ⟨?_, rfl, ?_, by decide⟩
  · simp [ReduceSlice, reduceLoop_eq_foldl]
  · simp [ReduceSlice, reduceLoop_eq_foldl]

theorem filterLoop_eq_filter {T : Type} (f : T → Bool) (xs : List T) :
    ∀ result, filterLoop f result xs = result ++ xs.filter f := by
  induction xs with
  | nil => intro result; simp [filterLoop]
  | cons x xs ih =>
    intro result
    simp only [filterLoop, ih]
    cases hfx : f x <;> simp [List.filter, hfx]

/-- C23: for every slice `xs` and predicate `f`, `FilterSlice(xs, f)` returns the elements of
`xs` that satisfy `f` in their original order (a sublist of `xs` all of whose elements
satisfy `f`), each as many times as it occurs in `xs`, and leaves `xs` as it was.  The even
elements of `[1, 2, 3, 4, 5]` are `[2, 4]`. -/
theorem filterSlice_exact {T : Type} [DecidableEq T] (xs : List T) (f : T → Bool) :
    ∃ result, FilterSlice (some xs) f = some (result, xs) ∧
      result = xs.filter f ∧ result.Sublist xs ∧
      (∀ x, x ∈ result ↔ x ∈ xs ∧ f x = true) ∧
      (∀ x, f x = true → result.count x = xs.count x) ∧
      (∀ x, f x = false → result.count x = 0) ∧
      (FilterSlice (some [1, 2, 3, 4, 5]) (fun a : Int => decide (a % 2 = 0))).map Prod.fst
        = some [2, 4] := by
  refine ⟨xs.filter f, ?_, rfl, List.filter_sublist xs, ?_, ?_, ?_, by decide⟩
  · simp [FilterSlice, filterLoop_eq_filter]
  · intro x
    exact List.mem_filter
  · intro x hx
    rw [List.count_filter hx]
  · intro x hx
    apply List.count_eq_zero_of_not_mem
    intro hmem
    rw [(List.mem_filter.mp hmem).2] at hx
    exact Bool.noConfusion hx


/-! ## Properties of the server manager -/

/-- C24, the code on registered ports: with no server `AssignPort` returns `8080`; with the
one server that `NewServer("a")` registers, on port `8080`, it returns `8080` again, not
`8081`, and a second `NewServer` without a port option fails on the port; with servers on
`8081` and `8082` it returns `8083` when the `range` yields `8082` first and `8082`, a
registered port, when the `range` yields `8081` first. -/
theorem assignPort_returns_registered_port :
    (srvManager.mk ∅).AssignPort rangeEntries = 8080 ∧
      oneServer.servers.keys = [8080] ∧
      oneServer.AssignPort rangeEntries = 8080 ∧
      (NewServer oneServer "b" [] rangeEntries rangeEntries).1
        = Except.error (ServerError.portExists 8080) ∧
      twoServers.servers.keys = [8082, 8081] ∧
      twoServers.AssignPort rangeEntries = 8083 ∧
      twoServers.AssignPort rangeReverse = 8082 :=
  ⟨by decide, by decide, by decide, rfl, by decide, by decide, by decide⟩

/-! ## More properties of the item store -/

/-- C25, the code on a timeout that is not positive: `CacheWithTimeout` for key `1` with
the timeout `0` on the new cache returns the error whose text says the cache was not set,
and starts no timer, but the item is in the store: `Get(1)` finds it, with the data pointer
of the configuration. -/
theorem cacheWithTimeout_error_after_insert :
    ((newCache : Cache Nat).Get 1).2 = false ∧
      ((newCache : Cache Nat).CacheWithTimeout 5 (NewCacheTimeoutConfig (some 0) 1 7 0)).err
        = some (CacheError.invalidTimeout 0) ∧
      ((newCache : Cache Nat).CacheWithTimeout 5 (NewCacheTimeoutConfig (some 0) 1 7 0)).timer
        = none ∧
      ((newCache : Cache Nat).CacheWithTimeout 5
        (NewCacheTimeoutConfig (some 0) 1 7 0)).cache.Get 1 = (⟨5, some 0⟩, true) := by
  decide

/-- C27: in every cache reachable from `newCache` by `Cache`, `CacheWithTimeout`, `Update`,
`Delete` and timer expiry no key of the item map holds a `nil` item.  Hence the tests of the
four methods agree with membership in the map: `Get(k)` reports ok, `Cache(k, _)` reports a
duplicate and `Delete(k)` succeeds exactly when `k` is in the map, `Update(k, _)` does not
panic and returns whether `k` is in the map, and `GetAll()` returns a map that has the key
`k` exactly when `Get(k)` reports ok. -/
theorem reachable_presence_tests_agree {T : Type} (c : Cache K) (hr : Reachable c) (k : K)
    (now : Time) (data : Ptr) (h : Heap T) (v : T) :
    (∀ k1, c.caches.lookup k1 ≠ some none) ∧
      ((c.Get k).2 = true ↔ k ∈ c.caches) ∧
      ((c.Cache now k data).1 = some (CacheError.duplicateKey k) ↔ k ∈ c.caches) ∧
      ((c.Delete k).1 = none ↔ k ∈ c.caches) ∧
      (∃ h1 c1, Cache.Update h c k v = some (decide (k ∈ c.caches), h1, c1)) ∧
      ∃ m, c.GetAll = some m ∧ ((c.Get k).2 = true ↔ k ∈ m) := by
  have hc : c.NoNil := reachable_noNil c hr
  have hnn : ∀ k1, c.caches.lookup k1 ≠ some none := by
    intro k1 hk1
    have hmem : (Sigma.mk k1 none : Sigma fun _ : K => Option Item) ∈ c.caches.entries :=
      AList.mem_lookup_iff.mp hk1
    exact Bool.noConfusion (hc _ hmem)
  obtain ⟨m, hm, hlook, _⟩ := getAll_of_noNil c hc
  by_cases hk : k ∈ c.caches
  · obtain ⟨it, hit⟩ := lookup_of_mem_noNil c hc k hk
    have hi : c.caches.index k = some it := index_of_lookup_some _ k _ hit
    refine ⟨hnn, ?_, ?_, ?_, ?_, m, hm, ?_⟩
    · rw [Get_of_index_some c k it hi]; exact ⟨fun _ => hk, fun _ => rfl⟩
    · rw [Cache_of_index_some c now k data it hi]; exact ⟨fun _ => hk, fun _ => rfl⟩
    · rw [Delete_of_index_some c k it hi]; exact ⟨fun _ => hk, fun _ => rfl⟩
    · simp only [Cache.Update, hit, hk, decide_True]
      exact ⟨_, _, rfl⟩
    · rw [Get_of_index_some c k it hi]
      have hmk : k ∈ m := by
        rw [← AList.lookup_isSome]
        have := hlook k
        rw [hit] at this
        cases hmk : m.lookup k with
        | none => rw [hmk] at this; exact Option.noConfusion this
        | some x => rfl
      exact ⟨fun _ => hmk, fun _ => rfl⟩
  · have hi : c.caches.index k = none := index_of_not_mem _ k hk
    have hnone : c.caches.lookup k = none := AList.lookup_eq_none.mpr hk
    refine ⟨hnn, ?_, ?_, ?_, ?_, m, hm, ?_⟩
    · rw [Get_of_index_none c k hi]
      exact ⟨fun h1 => Bool.noConfusion h1, fun h1 => absurd h1 hk⟩
    · rw [Cache_of_index_none c now k data hi]
      exact ⟨fun h1 => Option.noConfusion h1, fun h1 => absurd h1 hk⟩
    · rw [Delete_of_index_none c k hi]
      exact ⟨fun h1 => Option.noConfusion h1, fun h1 => absurd h1 hk⟩
    · simp only [Cache.Update, hnone, hk, decide_False]
      exact ⟨_, _, rfl⟩
    · rw [Get_of_index_none c k hi]
      have hmk : k ∉ m := by
        rw [← AList.lookup_eq_none]
        have := hlook k
        rw [hnone] at this
        cases hmk : m.lookup k with
        | none => rfl
        | some x => rw [hmk] at this; exact Option.noConfusion this
      exact ⟨fun h1 => Bool.noConfusion h1, fun h1 => absurd h1 hmk⟩

theorem reachable_presence_tests_agree_witness :
    Reachable (((newCache : Cache Nat).Cache 5 1 (some 0)).2.Delete 2).2 ∧
      ((∀ k1, (((newCache : Cache Nat).Cache 5 1 (some 0)).2.Delete 2).2.caches.lookup k1
          ≠ some none) ∧
        (((((newCache : Cache Nat).Cache 5 1 (some 0)).2.Delete 2).2.Get 1).2 = true ↔
          1 ∈ (((newCache : Cache Nat).Cache 5 1 (some 0)).2.Delete 2).2.caches) ∧
        (((((newCache : Cache Nat).Cache 5 1 (some 0)).2.Delete 2).2.Cache 6 1 none).1
            = some (CacheError.duplicateKey 1) ↔
          1 ∈ (((newCache : Cache Nat).Cache 5 1 (some 0)).2.Delete 2).2.caches) ∧
        (((((newCache : Cache Nat).Cache 5 1 (some 0)).2.Delete 2).2.Delete 1).1 = none ↔
          1 ∈ (((newCache : Cache Nat).Cache 5 1 (some 0)).2.Delete 2).2.caches) ∧
        (∃ h1 c1, Cache.Update ([10] : Heap Nat)
            (((newCache : Cache Nat).Cache 5 1 (some 0)).2.Delete 2).2 1 30
          = some (decide (1 ∈ (((newCache : Cache Nat).Cache 5 1 (some 0)).2.Delete 2).2.caches),
              h1, c1)) ∧
        ∃ m, (((newCache : Cache Nat).Cache 5 1 (some 0)).2.Delete 2).2.GetAll = some m ∧
          (((((newCache : Cache Nat).Cache 5 1 (some 0)).2.Delete 2).2.Get 1).2 = true ↔ 1 ∈ m)) :=
  ⟨Reachable.delete _ 2 (Reachable.cache newCache 5 1 (some 0) Reachable.init),
    reachable_presence_tests_agree _
      (Reachable.delete _ 2 (Reachable.cache newCache 5 1 (some 0) Reachable.init)) 1 6 none
      ([10] : Heap Nat) 30⟩

/-! ## Properties of the connection pool -/

/-- C26, the code on a connection that `AddConn` added: the connection at address `1` with
the key `id 7` is added to the new pool; `removeConnection` of it, and so `Conn.Close`,
deletes the key that is the pointer to the connection, which is not in the map, and leaves
the pool as it was: `Conns()` still has the connection under `id 7`, and `AddConn` of
another connection with the key `id 7` fails. -/
theorem removeConnection_removes_nothing :
    (NewPool.AddConn ⟨1, ConnKey.id 7⟩).1 = none ∧
      (NewPool.AddConn ⟨1, ConnKey.id 7⟩).2.Conns.lookup (ConnKey.id 7)
        = some ⟨1, ConnKey.id 7⟩ ∧
      ((NewPool.AddConn ⟨1, ConnKey.id 7⟩).2.removeConnection ⟨1, ConnKey.id 7⟩).Conns.lookup
          (ConnKey.id 7)
        = some ⟨1, ConnKey.id 7⟩ ∧
      (Conn.Close ⟨1, ConnKey.id 7⟩ (NewPool.AddConn ⟨1, ConnKey.id 7⟩).2).Conns.lookup
          (ConnKey.id 7)
        = some ⟨1, ConnKey.id 7⟩ ∧
      (((NewPool.AddConn ⟨1, ConnKey.id 7⟩).2.removeConnection ⟨1, ConnKey.id 7⟩).AddConn
          ⟨2, ConnKey.id 7⟩).1
        = some (PoolError.connExists (ConnKey.id 7)) := by
  decide

end Mnemo
